import Mathlib

/-!
Verification of the linear-chain CRF core of this repository
(language_prediction/feature.py and language_prediction/crf.py),
as a shallow embedding in Lean 4.

Modelling conventions:
* Python floats are modelled as exact rationals (ℚ).  The transcendental
  functions numpy.exp and math.log are modelled as explicit function
  parameters at the points where the source calls them, so every
  definition stays executable; theorems add the properties of the real
  exponential (e.g. positivity, exp 0 = 1) as hypotheses where needed.
* Python dicts and collections.Counter are modelled as insertion-ordered
  association lists with the exact lookup / insert / update semantics of
  CPython dicts (updating an existing key keeps its position, a new key
  is appended at the end).
* numpy matrices are modelled as total functions ℕ → ℕ → ℚ; the source
  only ever reads indices inside the allocated shape, except for the
  negative-index reads of viterbi_fix_history, which are embedded with
  Python's wrap-around semantics (pyRow / pyGetD below).
* The unbounded while-loop of the forward recursion is embedded with an
  explicit fuel parameter; running out of fuel is a distinguished result.
-/

set_option allowUnsafeReducibility true in
attribute [semireducible] Rat.mul Rat.add Rat.inv Rat.sub Rat.neg Rat.div

/-! ## Association lists with CPython dict semantics -/

/-- Lookup in an insertion-ordered association list (Python d[k], as Option). -/
def alookup {α β : Type} [DecidableEq α] : List (α × β) → α → Option β
  | [], _ => none
  | (a, b) :: r, k => if k = a then some b else alookup r k

/-- Python d[k] = v: overwrite in place if the key exists, else append. -/
def ainsert {α β : Type} [DecidableEq α] : List (α × β) → α → β → List (α × β)
  | [], k, v => [(k, v)]
  | (a, b) :: r, k, v => if k = a then (a, v) :: r else (a, b) :: ainsert r k v

/-- Apply a function to the value stored at a key, if present (Python d[k].update-in-place). -/
def amodify {α β : Type} [DecidableEq α] (f : β → β) : List (α × β) → α → List (α × β)
  | [], _ => []
  | (a, b) :: r, k => if k = a then (a, f b) :: r else (a, b) :: amodify f r k

theorem alookup_ainsert {α β : Type} [DecidableEq α] (l : List (α × β)) (k : α) (v : β)
    (k' : α) : alookup (ainsert l k v) k' = if k' = k then some v else alookup l k' := by
  induction l with
  | nil => by_cases h : k' = k <;> simp [ainsert, alookup, h]
  | cons p r ih =>
      obtain ⟨a, b⟩ := p
      by_cases hka : k = a
      · subst hka
        by_cases h : k' = k <;> simp [ainsert, alookup, h]
      · by_cases h : k' = a
        · subst h
          simp [ainsert, alookup, hka, Ne.symm hka]
        · simp [ainsert, alookup, hka, h, ih]

theorem alookup_amodify {α β : Type} [DecidableEq α] (f : β → β) (l : List (α × β)) (k k' : α) :
    alookup (amodify f l k) k' =
      if k' = k then (alookup l k).map f else alookup l k' := by
  induction l with
  | nil => by_cases h : k' = k <;> simp [amodify, alookup, h]
  | cons p r ih =>
      obtain ⟨a, b⟩ := p
      by_cases hka : k = a
      · subst hka
        by_cases h : k' = k <;> simp [amodify, alookup, h]
      · by_cases h : k' = a
        · subst h
          simp [amodify, alookup, hka, Ne.symm hka]
        · simp [amodify, alookup, hka, h, ih]

theorem alookup_eq_none_iff {α β : Type} [DecidableEq α] (l : List (α × β)) (k : α) :
    alookup l k = none ↔ k ∉ l.map Prod.fst := by
  induction l with
  | nil => simp [alookup]
  | cons p r ih =>
      obtain ⟨a, b⟩ := p
      by_cases h : k = a
      · simp [alookup, h]
      · simp [alookup, h, ih]

theorem keys_ainsert {α β : Type} [DecidableEq α] (l : List (α × β)) (k : α) (v : β) :
    (ainsert l k v).map Prod.fst =
      if k ∈ l.map Prod.fst then l.map Prod.fst else l.map Prod.fst ++ [k] := by
  induction l with
  | nil => simp [ainsert]
  | cons p r ih =>
      obtain ⟨a, b⟩ := p
      by_cases h : k = a
      · simp [ainsert, h]
      · by_cases hm : k ∈ r.map Prod.fst <;>
          simp [ainsert, h, ih, hm, Ne.symm, fun hh => h (hh : k = a)]

theorem nodup_keys_ainsert {α β : Type} [DecidableEq α] (l : List (α × β)) (k : α)
    (v : β) (h : (l.map Prod.fst).Nodup) : ((ainsert l k v).map Prod.fst).Nodup := by
  rw [keys_ainsert]
  by_cases hm : k ∈ l.map Prod.fst
  · simpa [hm] using h
  · rw [if_neg hm]
    exact List.Nodup.append h (List.nodup_singleton k)
      (by simpa [List.disjoint_singleton] using hm)

/-! ## feature.py : FeatureSet -/

/-- Index of the synthetic starting label (feature.py line 10). -/
def STARTING_LABEL_INDEX : ℕ := 0

/-- The synthetic starting label string (feature.py line 9). -/
def STARTING_LABEL : String := "*"

/-- A transition key (prev_y, y); prev_y = -1 encodes the unigram sentinel. -/
abbrev Transition : Type := ℤ × ℕ

/-- The feature dictionary: feature string → ordered dict of transition → feature id. -/
abbrev FeatureDic : Type := List (String × List (Transition × ℕ))

/-- State of feature.py's FeatureSet that the scan path mutates. -/
structure FeatureSet : Type where
  feature_dic : FeatureDic
  num_features : ℕ
  empirical_counts : List (ℕ × ℕ)
  label_dic : List (String × ℕ)
  label_array : List String

/-- FeatureSet.__init__ (feature.py lines 71-85). -/
def initFeatureSet : FeatureSet :=
  { feature_dic := []
    num_features := 0
    empirical_counts := []
    label_dic := [(STARTING_LABEL, STARTING_LABEL_INDEX)]
    label_array := [STARTING_LABEL] }

/-- Counter increment: self.empirical_counts[fid] += 1 (missing key counts as 0). -/
def cntIncr (c : List (ℕ × ℕ)) (k : ℕ) : List (ℕ × ℕ) :=
  match alookup c k with
  | some v => ainsert c k (v + 1)
  | none => ainsert c k 1

/-- Lookup of the feature id registered for (s, tr), i.e. feature_dic[s][tr]. -/
def fsPair (fs : FeatureSet) (s : String) (tr : Transition) : Option ℕ :=
  match alookup fs.feature_dic s with
  | some e => alookup e tr
  | none => none

/-- Body of FeatureSet._add for one feature string (feature.py lines 128-155):
first the bigram (prev_y, y) entry is looked up / created, then the unigram
(-1, y) entry, each creation assigning the next dense id and incrementing
its empirical count. -/
def addString (fs : FeatureSet) (p : ℤ) (y : ℕ) (s : String) : FeatureSet :=
  match alookup fs.feature_dic s with
  | some e =>
      let fs1 : FeatureSet :=
        match alookup e (p, y) with
        | some fid => { fs with empirical_counts := cntIncr fs.empirical_counts fid }
        | none =>
            { fs with
              feature_dic := amodify (fun e0 => ainsert e0 (p, y) fs.num_features)
                fs.feature_dic s
              empirical_counts := cntIncr fs.empirical_counts fs.num_features
              num_features := fs.num_features + 1 }
      match fsPair fs1 s (-1, y) with
      | some fid => { fs1 with empirical_counts := cntIncr fs1.empirical_counts fid }
      | none =>
          { fs1 with
            feature_dic := amodify (fun e0 => ainsert e0 (-1, y) fs1.num_features)
              fs1.feature_dic s
            empirical_counts := cntIncr fs1.empirical_counts fs1.num_features
            num_features := fs1.num_features + 1 }
  | none =>
      { fs with
        feature_dic := ainsert fs.feature_dic s
          (ainsert (ainsert [] (p, y) fs.num_features) (-1, y) (fs.num_features + 1))
        empirical_counts := cntIncr (cntIncr fs.empirical_counts fs.num_features)
          (fs.num_features + 1)
        num_features := fs.num_features + 2 }

/-- FeatureSet._add (feature.py lines 120-155): iterate the feature strings
produced by the feature function at (x, t). -/
def addFeatures {Obs : Type} (ff : List Obs → ℕ → List String) (fs : FeatureSet)
    (p : ℤ) (y : ℕ) (x : List Obs) (t : ℕ) : FeatureSet :=
  (ff x t).foldl (fun a s => addString a p y s) fs

/-- Label-id lookup with on-miss registration (feature.py lines 99-104). -/
def getLabelId (fs : FeatureSet) (lab : String) : ℕ × FeatureSet :=
  match alookup fs.label_dic lab with
  | some i => (i, fs)
  | none =>
      (fs.label_dic.length,
       { fs with
         label_dic := fs.label_dic ++ [(lab, fs.label_dic.length)]
         label_array := fs.label_array ++ [lab] })

/-- The t-loop of FeatureSet.scan over one (x, Y) pair, carrying prev_y.
rem counts the remaining time steps. -/
def scanSeqAux {Obs : Type} (ff : List Obs → ℕ → List String) (x : List Obs)
    (Y : List String) : ℕ → ℕ → ℤ → FeatureSet → FeatureSet
  | 0, _, _, fs => fs
  | rem + 1, t, prev, fs =>
      let yfs := getLabelId fs (Y.getD t "")
      scanSeqAux ff x Y rem (t + 1) (yfs.1 : ℤ) (addFeatures ff yfs.2 prev yfs.1 x t)

/-- FeatureSet.scan over one (x, Y) pair (feature.py lines 95-107). -/
def scanSeq {Obs : Type} (ff : List Obs → ℕ → List String) (fs : FeatureSet)
    (x : List Obs) (Y : List String) : FeatureSet :=
  scanSeqAux ff x Y x.length 0 (STARTING_LABEL_INDEX : ℤ) fs

/-- FeatureSet.scan (feature.py lines 87-107). -/
def scan {Obs : Type} (ff : List Obs → ℕ → List String) (fs : FeatureSet)
    (data : List (List Obs × List String)) : FeatureSet :=
  data.foldl (fun a xY => scanSeq ff a xY.1 xY.2) fs

/-- FeatureSet.get_empirical_counts (feature.py lines 197-201): a fresh
(uninitialised) dense array of length num_features in which exactly the
cells whose id appears in the counter are written; an unwritten cell is
modelled as none. -/
def get_empirical_counts (fs : FeatureSet) : List (Option ℕ) :=
  (List.range fs.num_features).map (fun fid => alookup fs.empirical_counts fid)

/-! ## feature.py : inference-time scoring -/

/-- FeatureSet.calc_inner_products (feature.py lines 180-195): an ordered
Counter over transitions, accumulating params[fid] for every transition
registered under every feature string active at (x, t); an unregistered
feature string contributes nothing (the KeyError is passed over). -/
def calc_inner_products {Obs : Type} (ff : List Obs → ℕ → List String) (dic : FeatureDic)
    (params : ℕ → ℚ) (x : List Obs) (t : ℕ) : List (Transition × ℚ) :=
  (ff x t).foldl
    (fun acc s =>
      match alookup dic s with
      | some e => e.foldl
          (fun acc2 pr =>
            match alookup acc2 pr.1 with
            | some q => ainsert acc2 pr.1 (q + params pr.2)
            | none => ainsert acc2 pr.1 (params pr.2)) acc
      | none => acc) []

/-! ## crf.py : potential tables -/

/-- A numpy matrix, as a total function on indices. -/
abbrev Mat : Type := ℕ → ℕ → ℚ

/-- The score-accumulation loop of _generate_potential_table
(crf.py lines 61-72): score for a unigram entry (-1, y) is added to the whole
column y, a bigram entry (p, y) is added to the single cell (p, y). -/
def applyScores (scores : List (Transition × ℚ)) : Mat :=
  scores.foldl
    (fun tb pr =>
      if pr.1.1 = -1 then (fun i j => if j = pr.1.2 then tb i j + pr.2 else tb i j)
      else (fun i j => if (i : ℤ) = pr.1.1 ∧ j = pr.1.2 then tb i j + pr.2 else tb i j))
    (fun _ _ => 0)

/-- Pre-exponentiation score table of _generate_potential_table at time t
(inference mode, crf.py lines 59-65). -/
def potAccum {Obs : Type} (ff : List Obs → ℕ → List String) (dic : FeatureDic)
    (params : ℕ → ℚ) (x : List Obs) (t : ℕ) : Mat :=
  applyScores (calc_inner_products ff dic params x t)

/-- _generate_potential_table, inference mode (crf.py lines 50-81), with the
exponential passed in as E.  Note the order in the source: the whole table is
exponentiated first (line 73) and the boundary rows/columns are zeroed
afterwards (lines 74-78), so the boundary cells hold exactly 0. -/
def generate_potential_table {Obs : Type} (E : ℚ → ℚ) (ff : List Obs → ℕ → List String)
    (dic : FeatureDic) (params : ℕ → ℚ) (x : List Obs) : ℕ → Mat :=
  fun t =>
    if t = 0 then (fun i j => if 1 ≤ i then 0 else E (potAccum ff dic params x t i j))
    else (fun i j => if i = 0 ∨ j = 0 then 0 else E (potAccum ff dic params x t i j))

/-- Modelled from the spec sentence for the boundary conditions: "at t=0, any
row/column beyond index starting label is zeroed in the pre-exponentiated
score array and only then exponentiated; for t>0, the column for starting
label and the row for starting label are forced to 0 before exponentiating".
This definition follows the spec's words (zero before exponentiating), to be
compared with generate_potential_table, which follows the source. -/
def generate_potential_table_specOrder {Obs : Type} (E : ℚ → ℚ)
    (ff : List Obs → ℕ → List String) (dic : FeatureDic) (params : ℕ → ℚ)
    (x : List Obs) : ℕ → Mat :=
  fun t =>
    if t = 0 then (fun i j => E (if 1 ≤ i then 0 else potAccum ff dic params x t i j))
    else (fun i j => E (if i = 0 ∨ j = 0 then 0 else potAccum ff dic params x t i j))

/-- Training-mode feature data for one time step: the ((prev_y, y),
feature_ids) list produced by FeatureSet.get_feature_list. -/
abbrev TFeat : Type := List (Transition × List ℕ)

/-- Training-mode feature data for one sequence (training_feature_data[i]). -/
abbrev SeqFeat : Type := List TFeat

/-- _generate_potential_table, training mode (crf.py lines 66-72): scores are
direct sums of params over the precomputed feature-id lists. -/
def generate_potential_table_train (E : ℚ → ℚ) (params : ℕ → ℚ) (xfs : SeqFeat) :
    ℕ → Mat :=
  fun t =>
    let pre := applyScores ((xfs.getD t []).map (fun e => (e.1, (e.2.map params).sum)))
    if t = 0 then (fun i j => if 1 ≤ i then 0 else E (pre i j))
    else (fun i j => if i = 0 ∨ j = 0 then 0 else E (pre i j))

/-! ## crf.py : forward-backward with Rabiner rescaling -/

/-- The overflow guard threshold (crf.py line 33). -/
def SCALING_THRESHOLD : ℚ := ((10 ^ 250 : ℕ) : ℚ)

/-- Sum of f i * g i over i < n (np.dot of row vectors). -/
def dotRange (n : ℕ) (f g : ℕ → ℚ) : ℚ :=
  ((List.range n).map (fun i => f i * g i)).sum

/-- Sum of f i over i < n. -/
def sumRange (n : ℕ) (f : ℕ → ℚ) : ℚ :=
  ((List.range n).map f).sum

/-- Result of one inner pass of the forward loop (crf.py lines 103-116):
either the completed row, an overflow (break with the flag freshly set), or
the consecutive-overflow exception of line 109, which can only fire when the
overflow_occured flag passed in is already true. -/
inductive FPass : Type
  | raisedE : FPass
  | overflowed : FPass
  | done : (ℕ → ℚ) → FPass

/-- The inner label loop of the forward recursion: computes
alpha[t, label] = dot(alpha[t-1, :], potential[t][:, label]) for
label = 1 .. n-1, breaking at the first overflow.  rem counts remaining
labels; ofl is the overflow_occured flag on entry to the check at line 107. -/
def forwardPassAux (n : ℕ) (pot_t : Mat) (aprev : ℕ → ℚ) (ofl : Bool) :
    ℕ → ℕ → (ℕ → ℚ) → FPass
  | 0, _, row => .done row
  | rem + 1, lab, row =>
      let v := dotRange n aprev (fun i => pot_t i lab)
      if SCALING_THRESHOLD < v then (if ofl then .raisedE else .overflowed)
      else forwardPassAux n pot_t aprev ofl rem (lab + 1)
        (fun j => if j = lab then v else row j)

/-- The outer while-loop of the forward recursion (crf.py lines 99-121), with
explicit fuel.  On overflow the scaling event is recorded at t-1, alpha[t-1]
is divided by the coefficient, alpha[t] is reset, and the same t is retried;
note the overflow_occured flag is reset to false on every pass, exactly as in
the source (line 102). -/
def forwardAux (n T : ℕ) (pot : ℕ → Mat) :
    ℕ → ℕ → Mat → List (ℕ × ℚ) → Option (Except Unit (Mat × List (ℕ × ℚ)))
  | 0, _, _, _ => none
  | fuel + 1, t, alpha, sdic =>
      if t < T then
        match forwardPassAux n (pot t) (fun i => alpha (t - 1) i) false (n - 1) 1
          (fun _ => 0) with
        | .raisedE => some (Except.error ())
        | .overflowed =>
            forwardAux n T pot fuel t
              (fun a b =>
                if a = t - 1 then alpha a b / SCALING_THRESHOLD
                else if a = t then 0 else alpha a b)
              (ainsert sdic (t - 1) SCALING_THRESHOLD)
        | .done row =>
            forwardAux n T pot fuel (t + 1)
              (fun a b => if a = t then row b else alpha a b) sdic
      else some (Except.ok (alpha, sdic))

/-- alpha initialisation (crf.py lines 94-96): alpha[0, y] = pot[0][0, y]. -/
def alphaInit (n : ℕ) (pot : ℕ → Mat) : Mat :=
  fun a b => if a = 0 ∧ b < n then pot 0 STARTING_LABEL_INDEX b else 0

/-- The backward recursion (crf.py lines 123-132): beta[T-1, :] = 1 and for
t from T-2 down to 0, beta[t, y] = dot(beta[t+1, :], pot[t+1][y, :]) for
y = 1 .. n-1, dividing the whole row by the recorded scaling coefficient when
t is a scaling time.  The first argument is t+1 for the row to fill next. -/
def backwardAux (n : ℕ) (pot : ℕ → Mat) (sdic : List (ℕ × ℚ)) :
    ℕ → Mat → Mat
  | 0, beta => beta
  | t + 1, beta =>
      let row : ℕ → ℚ := fun lab =>
        if 1 ≤ lab ∧ lab < n then dotRange n (fun nx => beta (t + 1) nx)
          (fun nx => pot (t + 1) lab nx)
        else 0
      let row2 : ℕ → ℚ :=
        match alookup sdic t with
        | some c => fun lab => row lab / c
        | none => row
      backwardAux n pot sdic t (fun a b => if a = t then row2 b else beta a b)

/-- beta initialisation (crf.py lines 123-126). -/
def betaInit (n T : ℕ) : Mat :=
  fun a b => if a = T - 1 ∧ b < n then 1 else 0

/-- Result of _forward_backward: out of fuel, the consecutive-overflow
exception, or (alpha, beta, Z, scaling_dic). -/
inductive FBRes : Type
  | fuelOut : FBRes
  | raised : FBRes
  | ok : Mat → Mat → ℚ → List (ℕ × ℚ) → FBRes

/-- _forward_backward (crf.py lines 84-136). -/
def forward_backward (n T : ℕ) (pot : ℕ → Mat) (fuel : ℕ) : FBRes :=
  match forwardAux n T pot fuel 1 (alphaInit n pot) [] with
  | none => .fuelOut
  | some (Except.error _) => .raised
  | some (Except.ok (alpha, sdic)) =>
      let beta := backwardAux n pot sdic (T - 1) (betaInit n T)
      .ok alpha beta (sumRange n (fun lab => alpha (T - 1) lab)) sdic

/-- Z of a forward-backward result, when it completed. -/
def fbZ : FBRes → Option ℚ
  | .ok _ _ Z _ => some Z
  | _ => none

/-- Whether forward-backward completed without the exception. -/
def fbIsOk : FBRes → Bool
  | .ok _ _ _ _ => true
  | _ => false

/-- Whether forward-backward raised the consecutive-overflow exception. -/
def fbIsRaised : FBRes → Bool
  | .raised => true
  | _ => false

/-- A cell of the final alpha table, when forward-backward completed. -/
def fbAlphaAt (r : FBRes) (i j : ℕ) : Option ℚ :=
  match r with
  | .ok alpha _ _ _ => some (alpha i j)
  | _ => none

/-- The recorded scaling dictionary, when forward-backward completed. -/
def fbSdic : FBRes → Option (List (ℕ × ℚ))
  | .ok _ _ _ sdic => some sdic
  | _ => none

/-! ## crf.py : Viterbi decoding -/

/-- The strict-improvement scan underlying both the per-label max loop
(crf.py lines 402-408, initial value -inf modelled by the none accumulator)
and numpy argmax over a row (line 413, ties resolved to the first index). -/
def scanMax (f : ℕ → ℚ) : List ℕ → Option (ℚ × ℕ) → Option (ℚ × ℕ)
  | [], acc => acc
  | i :: rest, acc =>
      match acc with
      | none => scanMax f rest (some (f i, i))
      | some (v, j) => if v < f i then scanMax f rest (some (f i, i))
        else scanMax f rest (some (v, j))

/-- numpy argmax over indices 0 .. n-1 (first maximal index). -/
def argmaxRange (f : ℕ → ℚ) (n : ℕ) : ℕ :=
  ((scanMax f (List.range n) none).map Prod.snd).getD 0

/-- The max_table / argmax_table recursion of the free Viterbi decoder
(crf.py lines 397-410): at t the cell for a label in 1 .. n-1 holds the
maximum over previous labels 1 .. n-1 of max_table[t-1, prev] *
potential[t][prev, label] together with the argmax previous label; cells
never written keep their zero initialisation. -/
def maxTbl (n : ℕ) (pot : ℕ → Mat) : ℕ → ℕ → ℚ × ℕ
  | 0, y => (pot 0 STARTING_LABEL_INDEX y, 0)
  | t + 1, y =>
      if 1 ≤ y ∧ y < n then
        match scanMax (fun prev => (maxTbl n pot t prev).1 * pot (t + 1) prev y)
          (List.range' 1 (n - 1)) none with
        | some vj => vj
        | none => (0, 0)
      else (0, 0)

/-- The backpointer trace of crf.py lines 415-417: from time t and the label
chosen at t+1, collect argmax_table[t, next], argmax_table[t-1, ...], ...,
argmax_table[0, ...]. -/
def vitChain (amax : ℕ → ℕ → ℕ) : ℕ → ℕ → List ℕ
  | 0, next => [amax 0 next]
  | t + 1, next => amax (t + 1) next :: vitChain amax t (amax (t + 1) next)

/-- LinearChainCRF.viterbi (crf.py lines 389-418), returning the decoded
label-id sequence (the final sequence[::-1][1:] slice included); the
label-string mapping of line 418 is modelled separately. -/
def viterbiIds (n T : ℕ) (pot : ℕ → Mat) : List ℕ :=
  match T with
  | 0 => []
  | Tp + 1 =>
      let next0 := argmaxRange (fun y => (maxTbl n pot Tp y).1) n
      let chain := vitChain (fun t y => (maxTbl n pot t y).2) Tp next0
      ((next0 :: chain).reverse).drop 1

/-- Python negative-index read of a list (y[i] with wrap-around for i < 0). -/
def pyGetD (l : List String) (i : ℤ) : String :=
  if i < 0 then l.getD (l.length - (-i).toNat) "" else l.getD i.toNat ""

/-- Python negative-index row access into a (T, n) numpy table. -/
def pyRow (T : ℕ) (i : ℤ) : ℕ :=
  if i < 0 then T - (-i).toNat else i.toNat

/-- Functional single-cell update of a rational matrix. -/
def mupdQ (m : Mat) (i j : ℕ) (v : ℚ) : Mat :=
  fun a b => if a = i ∧ b = j then v else m a b

/-- Functional single-cell update of an integer matrix. -/
def mupdN (m : ℕ → ℕ → ℕ) (i j : ℕ) (v : ℕ) : ℕ → ℕ → ℕ :=
  fun a b => if a = i ∧ b = j then v else m a b

/-- The final-step loop of viterbi_fix_history (crf.py lines 434-444),
embedded as a sequential left fold because for T = 1 the row it writes is the
row it reads (last_t - 1 = -1 wraps to row 0 in Python). -/
def fixFinalLoop (pot : ℕ → Mat) (lastT readRow prevIdx : ℕ) :
    List ℕ → Mat × (ℕ → ℕ → ℕ) → Mat × (ℕ → ℕ → ℕ)
  | [], ma => ma
  | lab :: rest, ma =>
      let v := ma.1 readRow prevIdx * pot lastT prevIdx lab
      fixFinalLoop pot lastT readRow prevIdx rest
        (mupdQ ma.1 lastT lab v, mupdN ma.2 lastT lab prevIdx)

/-- The history-pinning loop of viterbi_fix_history (crf.py lines 430-432). -/
def fixPinLoop (ry : ℕ → ℕ) : List ℕ → Mat × (ℕ → ℕ → ℕ) → Mat × (ℕ → ℕ → ℕ)
  | [], ma => ma
  | t :: rest, ma =>
      fixPinLoop ry rest (mupdQ ma.1 t (ry t) 1, mupdN ma.2 t (ry t) (ry (t - 1)))

/-- LinearChainCRF.viterbi_fix_history (crf.py lines 420-452), returning the
decoded label-id sequence.  reverse_label_dict built from the loaded label
dictionary maps a label string to its index in label_array, i.e. indexOf for
a duplicate-free label_array; y holds the true label strings. -/
def viterbi_fix_history (n T : ℕ) (pot : ℕ → Mat) (arr y : List String) : List ℕ :=
  let ry : ℕ → ℕ := fun t => arr.indexOf (y.getD t "")
  let m0 : Mat := mupdQ (fun _ _ => 0) 0 (ry 0) 1
  let ma1 := fixPinLoop ry (List.range' 1 (T - 2)) (m0, fun _ _ => 0)
  let prevIdx := arr.indexOf (pyGetD y ((T : ℤ) - 2))
  let readRow := pyRow T ((T : ℤ) - 2)
  let ma2 := fixFinalLoop pot (T - 1) readRow prevIdx (List.range' 1 (n - 1)) ma1
  match T with
  | 0 => []
  | Tp + 1 =>
      let next0 := argmaxRange (fun ylab => ma2.1 Tp ylab) n
      let chain := vitChain (fun t ylab => ma2.2 t ylab) Tp next0
      ((next0 :: chain).reverse).drop 1

/-- Modelled from the spec sentence "sequences of length 1 degrade to a
single potential lookup with no transitions": the decode of a length-1
sequence the claim describes, a single argmax over the starting row of the
first potential table. -/
def singleLookupIds (n : ℕ) (pot : ℕ → Mat) : List ℕ :=
  [argmaxRange (fun y => pot 0 STARTING_LABEL_INDEX y) n]

/-! ## crf.py : the label dictionary after train versus after load -/

/-- A Python dict key/value that is either a string or an int, as needed to
model the heterogeneous label dictionaries of the train and load paths. -/
inductive PyV : Type
  | s : String → PyV
  | i : ℕ → PyV
deriving DecidableEq

/-- The label dictionary held in memory right after train: the scan path
(feature.py lines 82, 99-104) maps label string → index. -/
def train_label_dic (fs : FeatureSet) : List (PyV × PyV) :=
  fs.label_dic.map (fun e => (PyV.s e.1, PyV.i e.2))

/-- The label dictionary held in memory right after load (feature.py line
112): the dict comprehension iterates enumerate(label_array), so it maps
index → label string. -/
def load_label_dic (arr : List String) : List (PyV × PyV) :=
  arr.enum.map (fun e => (PyV.i e.1, PyV.s e.2))

/-- The final mapping of both Viterbi decoders (crf.py lines 418 and 452):
self.label_dic[label_id] for each decoded id; none models the KeyError. -/
def decode_output_labels (dic : List (PyV × PyV)) (ids : List ℕ) : List (Option PyV) :=
  ids.map (fun id0 => alookup dic (PyV.i id0))

/-! ## crf.py : _log_likelihood and _gradient -/

/-- The marginal probability added for one ((prev_y, y), feature_ids) entry
at time t (crf.py lines 168-184); none models the continue statements that
skip structurally impossible transitions. -/
def probOf (pot : ℕ → Mat) (alpha beta : Mat) (Z : ℚ) (sdic : List (ℕ × ℚ))
    (t : ℕ) (p : ℤ) (y : ℕ) : Option ℚ :=
  if p = -1 then
    match alookup sdic t with
    | some c => some (alpha t y * beta t y * c / Z)
    | none => some (alpha t y * beta t y / Z)
  else if t = 0 then
    if p = (STARTING_LABEL_INDEX : ℤ) then
      some (pot 0 STARTING_LABEL_INDEX y * beta t y / Z)
    else none
  else
    if p = (STARTING_LABEL_INDEX : ℤ) ∨ y = STARTING_LABEL_INDEX then none
    else some (alpha (t - 1) p.toNat * pot t p.toNat y * beta t y / Z)

/-- expected_counts[fid] += prob over one feature-id list. -/
def addProbFids (prob : ℚ) : List ℕ → (ℕ → ℚ) → (ℕ → ℚ)
  | [], acc => acc
  | fid :: rest, acc =>
      addProbFids prob rest (fun i => if i = fid then acc i + prob else acc i)

/-- The expected-count accumulation over one time step (crf.py lines 168-188). -/
def addExpectedT (pot : ℕ → Mat) (alpha beta : Mat) (Z : ℚ) (sdic : List (ℕ × ℚ))
    (t : ℕ) : TFeat → (ℕ → ℚ) → (ℕ → ℚ)
  | [], acc => acc
  | e :: rest, acc =>
      let acc2 :=
        match probOf pot alpha beta Z sdic t e.1.1 e.1.2 with
        | none => acc
        | some prob => addProbFids prob e.2 acc
      addExpectedT pot alpha beta Z sdic t rest acc2

/-- The expected-count accumulation over one sequence (crf.py lines 166-188),
iterating time steps in order with their feature entries. -/
def addExpectedSeq (pot : ℕ → Mat) (alpha beta : Mat) (Z : ℚ) (sdic : List (ℕ × ℚ)) :
    List (ℕ × TFeat) → (ℕ → ℚ) → (ℕ → ℚ)
  | [], acc => acc
  | te :: rest, acc =>
      addExpectedSeq pot alpha beta Z sdic rest
        (addExpectedT pot alpha beta Z sdic te.1 te.2 acc)

/-- The per-sequence step of the training pass (crf.py lines 160-188): build
the training-mode potential tables, run forward-backward, accumulate
total_logZ += log Z + sum of logs of the recorded scaling coefficients, and
fold the expected counts; a fuel-exhausted or raising forward-backward run
poisons the whole pass. -/
def llSeqStep (E L : ℚ → ℚ) (n fuel : ℕ) (params : ℕ → ℚ)
    (st : Option (ℚ × (ℕ → ℚ))) (xfs : SeqFeat) : Option (ℚ × (ℕ → ℚ)) :=
  match st with
  | none => none
  | some tlzExp =>
      let pot := generate_potential_table_train E params xfs
      match forward_backward n xfs.length pot fuel with
      | .ok alpha beta Z sdic =>
          some (tlzExp.1 + (L Z + (sdic.map (fun e => L e.2)).sum),
            addExpectedSeq pot alpha beta Z sdic xfs.enum tlzExp.2)
      | _ => none

/-- The corpus loop of _log_likelihood (crf.py lines 159-188), returning
(total_logZ, expected_counts). -/
def llPass (E L : ℚ → ℚ) (n fuel : ℕ) (params : ℕ → ℚ) (tfd : List SeqFeat)
    (init : Option (ℚ × (ℕ → ℚ))) : Option (ℚ × (ℕ → ℚ)) :=
  tfd.foldl (llSeqStep E L n fuel params) init

/-- _log_likelihood together with the gradient it stores in the GRADIENT
global (crf.py lines 151-209): the value returned to the optimizer is
likelihood * -1 and _gradient returns GRADIENT * -1. -/
def log_likelihood (E L : ℚ → ℚ) (n nf fuel : ℕ) (tfd : List SeqFeat)
    (emp : ℕ → ℚ) (sqSigma : ℚ) (params : ℕ → ℚ) : Option (ℚ × (ℕ → ℚ)) :=
  match llPass E L n fuel params tfd (some (0, fun _ => 0)) with
  | none => none
  | some tlzExp =>
      let likelihood := dotRange nf emp params - tlzExp.1 -
        dotRange nf params params / (sqSigma * 2)
      some (likelihood * (-1),
        fun i => (emp i - tlzExp.2 i - params i / sqSigma) * (-1))

/-- The per-sequence contribution to total_logZ, recomputed independently of
the accumulator threading: log Z plus the logs of all recorded scaling
coefficients of that sequence. -/
def seqLogZ (E L : ℚ → ℚ) (n fuel : ℕ) (params : ℕ → ℚ) (xfs : SeqFeat) : ℚ :=
  match forward_backward n xfs.length (generate_potential_table_train E params xfs) fuel with
  | .ok _ _ Z sdic => L Z + (sdic.map (fun e => L e.2)).sum
  | _ => 0

/-- The per-sequence expected counts, accumulated from zero. -/
def seqExpected (E : ℚ → ℚ) (n fuel : ℕ) (params : ℕ → ℚ) (xfs : SeqFeat) : ℕ → ℚ :=
  match forward_backward n xfs.length (generate_potential_table_train E params xfs) fuel with
  | .ok alpha beta Z sdic =>
      addExpectedSeq (generate_potential_table_train E params xfs) alpha beta Z sdic
        xfs.enum (fun _ => 0)
  | _ => fun _ => 0

/-! ## Concrete instances used by the claim theorems -/

/-- A feature function that produces no feature strings. -/
def ffNone : List Unit → ℕ → List String := fun _ _ => []

/-- The constant-one stand-in for numpy.exp at the all-zero score point. -/
def expOne : ℚ → ℚ := fun _ => 1

/-- Powers of ten as rationals (10^k models the 1eK float literals). -/
def bigQ (k : ℕ) : ℚ := ((10 ^ k : ℕ) : ℚ)

/-- A feature function producing one fixed feature string. -/
def ffOne : List Unit → ℕ → List String := fun _ _ => ["f0"]

/-- A one-sequence training corpus with the single real label A. -/
def dataC1 : List (List Unit × List String) := [([()], ["A"])]

/-- The FeatureSet after scanning dataC1: label_array = [*, A], features
(0,1) ↦ 0 and (-1,1) ↦ 1 under feature string f0. -/
def fsC1 : FeatureSet := scan ffOne initFeatureSet dataC1

/-- Parameters giving the unigram feature of label A weight 5. -/
def paramsC1 : ℕ → ℚ := fun fid => if fid = 1 then 5 else 0

/-- Decode-time potential tables for a length-1 observation sequence under
fsC1's feature dictionary, with the identity as stand-in exponential. -/
def potC1 : ℕ → Mat := generate_potential_table id ffOne fsC1.feature_dic paramsC1 [()]

/-- Potential tables driving the forward recursion into overflow twice at
the same time step: alpha[0,1] = 1e200 and potential[1][1,1] = 1e400, so
alpha[1,1] = 1e600 overflows, and after the rescale by 1e250 the retry value
1e350 overflows again with no successful step in between. -/
def potC2 : ℕ → Mat := fun t i j =>
  if t = 0 then (if i = 0 ∧ j = 1 then bigQ 200 else 0)
  else (if i = 1 ∧ j = 1 then bigQ 400 else 0)

/-- The stand-in exponential q + 1; it satisfies E 0 = 1 = exp 0 and
distinguishes a cell zeroed before exponentiation (value 1) from a cell
zeroed after exponentiation (value 0). -/
def expAffine : ℚ → ℚ := fun q => q + 1

/-- Decode-time potential tables of the canonical zero-parameter scenario:
3 time steps, 3 label indices (starting label plus two real labels). -/
def potC5 : ℕ → Mat := generate_potential_table expOne ffNone [] (fun _ => 0) [(), (), ()]

/-- The number of label paths of length 3 over label indices 0..2 that avoid
the starting label at every step (the valid paths of the boundary rules). -/
def validPathCount : ℕ :=
  (Finset.univ.filter (fun p : Fin 3 → Fin 3 => ∀ k, p k ≠ 0)).card

/-- Decode-time potential tables for a length-1 sequence with one real label
and all-zero parameters. -/
def potC6 : ℕ → Mat := generate_potential_table expOne ffNone [] (fun _ => 0) [()]

/-- A positive, strictly monotone stand-in exponential. -/
def expShift : ℚ → ℚ := fun q => q + 3

/-- A feature dictionary with a single unigram feature for label index 2. -/
def dicC8 : FeatureDic := [("f", [((-1, 2), 0)])]

/-- A feature function producing the single feature string of dicC8. -/
def ffC8 : List Unit → ℕ → List String := fun _ _ => ["f"]

/-- Parameters giving that unigram feature weight 5. -/
def paramsC8 : ℕ → ℚ := fun fid => if fid = 0 then 5 else 0

/-- Potential tables for a length-1 sequence in which label index 2 has the
strictly largest starting-row potential. -/
def potC8 : ℕ → Mat := generate_potential_table expShift ffC8 dicC8 paramsC8 [()]

/-! ## C1 -/

/-- C1: the claim states that save→load→test equals test-after-train, and in
particular that the post-train in-memory state supports decoding just as the
post-load state does.  The code contradicts this: after train the label
dictionary maps label string → index (scan path), so the integer lookup
self.label_dic[label_id] in viterbi raises KeyError (modelled as none), while
after load the dictionary maps index → label string and the same lookup
succeeds.  On the concrete one-sequence corpus dataC1 the decoder picks label
id 1; decoding crashes in the post-train state and returns label A in the
post-load state, so test immediately after train cannot return the accuracy
that save→load→test returns. -/
theorem train_test_label_lookup_mismatch :
    viterbiIds 2 1 potC1 = [1] ∧
    decode_output_labels (train_label_dic fsC1) (viterbiIds 2 1 potC1) = [none] ∧
    decode_output_labels (load_label_dic fsC1.label_array) (viterbiIds 2 1 potC1) =
      [some (PyV.s "A")] := by
  decide

/-! ## C2 -/

/-- C2: the claim states that a rescale event immediately followed by a
second overflow with no successful step in between makes the engine raise
and abort.  In the code the overflow_occured flag is reset to false at the
top of every pass of the outer while-loop and the inner loop breaks right
after setting it, so the raise of crf.py line 109 is unreachable.  On potC2
the step t = 1 overflows (1e600 > 1e250), is rescaled, and overflows again
on the immediate retry (1e350 > 1e250) with no successful step in between;
the run does not raise: it rescales a second time (alpha[0,1] ends divided
by the threshold twice, at 1e-300) and completes, overwriting the single
scaling-dictionary entry instead of recording the second coefficient. -/
theorem consecutive_overflow_not_fatal :
    fbIsRaised (forward_backward 2 2 potC2 10) = false ∧
    fbIsOk (forward_backward 2 2 potC2 10) = true ∧
    fbAlphaAt (forward_backward 2 2 potC2 10) 0 1 = some (1 / bigQ 300) ∧
    fbSdic (forward_backward 2 2 potC2 10) = some [(0, SCALING_THRESHOLD)] ∧
    fbZ (forward_backward 2 2 potC2 10) = some (bigQ 100) := by
  decide

/-! ## C3 -/

/-- C3 counterexample: the claim says the boundary cells are zeroed in the
pre-exponentiated score array and only afterwards exponentiated; that order
would leave exp 0 = 1 in those cells (generate_potential_table_specOrder).
The source exponentiates first and zeroes afterwards, leaving exactly 0.
With the stand-in exponential q + 1 (which maps 0 to 1, as exp does) the two
orders disagree at the t = 0 boundary rows and at the t = 1 starting row. -/
theorem potential_zeroing_order_counterexample :
    generate_potential_table expAffine ffNone [] (fun _ => 0) [(), ()] 0 1 1 = 0 ∧
    generate_potential_table_specOrder expAffine ffNone [] (fun _ => 0) [(), ()] 0 1 1 = 1 ∧
    generate_potential_table expAffine ffNone [] (fun _ => 0) [(), ()] 1 0 1 = 0 ∧
    generate_potential_table_specOrder expAffine ffNone [] (fun _ => 0) [(), ()] 1 0 1 = 1 := by
  decide

/-- C3 amended: the potential-table generator exponentiates the accumulated
score array first and forces the boundary cells to 0 afterwards, so at t = 0
every cell in a row beyond the starting-label index is exactly 0, for t > 0
every cell in the starting-label row or column is exactly 0, and every
surviving cell is the exponential of the accumulated inner-product score. -/
theorem potential_table_boundary_after_exp {Obs : Type} (E : ℚ → ℚ)
    (ff : List Obs → ℕ → List String) (dic : FeatureDic) (params : ℕ → ℚ)
    (x : List Obs) :
    (∀ i j, 1 ≤ i → generate_potential_table E ff dic params x 0 i j = 0) ∧
    (∀ t i j, t ≠ 0 → (i = 0 ∨ j = 0) →
      generate_potential_table E ff dic params x t i j = 0) ∧
    (∀ j, generate_potential_table E ff dic params x 0 0 j =
      E (potAccum ff dic params x 0 0 j)) ∧
    (∀ t i j, t ≠ 0 → i ≠ 0 → j ≠ 0 →
      generate_potential_table E ff dic params x t i j =
        E (potAccum ff dic params x t i j)) := by
  refine ⟨?_, ?_, ?_, ?_⟩
  · intro i j hi
    simp [generate_potential_table, hi]
  · intro t i j ht hij
    simp [generate_potential_table, ht, hij]
  · intro j
    simp [generate_potential_table]
  · intro t i j ht hi hj
    simp [generate_potential_table, ht, hi, hj]

/-- Witness for the amended C3 theorem at concrete boundary cells. -/
theorem potential_table_boundary_after_exp_witness :
    generate_potential_table expAffine ffNone [] (fun _ => 0) [(), ()] 0 2 1 = 0 ∧
    generate_potential_table expAffine ffNone [] (fun _ => 0) [(), ()] 1 2 0 = 0 := by
  refine ⟨?_, ?_⟩
  · exact (potential_table_boundary_after_exp expAffine ffNone [] (fun _ => 0)
      [(), ()]).1 2 1 (by norm_num)
  · exact (potential_table_boundary_after_exp expAffine ffNone [] (fun _ => 0)
      [(), ()]).2.1 1 2 0 (by norm_num) (Or.inr rfl)

/-! ## C5 -/

/-- C5 counterexample: on the canonical zero-parameter scenario (3 time
steps, 2 real labels, every non-boundary potential cell equal to 1) the
partition function returned by forward-backward is 8, not the 4 stated by
the spec. -/
theorem zero_params_Z_counterexample :
    fbZ (forward_backward 3 3 potC5 10) = some 8 ∧
    fbZ (forward_backward 3 3 potC5 10) ≠ some 4 := by
  decide

/-- C5 amended: in the zero-parameter scenario every potential cell except
the boundary-forced zeros equals exp 0 = 1, and Z equals the number of valid
label paths through the 3 steps honouring the boundary rules, namely
2 * 2 * 2 = 8 (not 4). -/
theorem zero_params_uniform_potentials_and_Z :
    (∀ t i j : Fin 3,
      ¬ (t.val = 0 ∧ 1 ≤ i.val) → ¬ (t.val ≠ 0 ∧ (i.val = 0 ∨ j.val = 0)) →
        potC5 t.val i.val j.val = 1) ∧
    validPathCount = 8 ∧
    fbZ (forward_backward 3 3 potC5 10) = some (validPathCount : ℚ) := by
  refine ⟨by decide, by decide, by decide⟩

/-! ## Helper lemmas : potential-table cells -/

theorem genPot_t0_boundary {Obs : Type} (E : ℚ → ℚ) (ff : List Obs → ℕ → List String)
    (dic : FeatureDic) (params : ℕ → ℚ) (x : List Obs) (i j : ℕ) (hi : 1 ≤ i) :
    generate_potential_table E ff dic params x 0 i j = 0 := by
  simp [generate_potential_table, hi]

theorem genPot_t0_start {Obs : Type} (E : ℚ → ℚ) (ff : List Obs → ℕ → List String)
    (dic : FeatureDic) (params : ℕ → ℚ) (x : List Obs) (j : ℕ) :
    generate_potential_table E ff dic params x 0 0 j =
      E (potAccum ff dic params x 0 0 j) := by
  simp [generate_potential_table]

theorem genPot_pos_boundary {Obs : Type} (E : ℚ → ℚ) (ff : List Obs → ℕ → List String)
    (dic : FeatureDic) (params : ℕ → ℚ) (x : List Obs) (t i j : ℕ) (ht : t ≠ 0)
    (hij : i = 0 ∨ j = 0) : generate_potential_table E ff dic params x t i j = 0 := by
  simp [generate_potential_table, ht, hij]

theorem genPot_pos_cell {Obs : Type} (E : ℚ → ℚ) (ff : List Obs → ℕ → List String)
    (dic : FeatureDic) (params : ℕ → ℚ) (x : List Obs) (t i j : ℕ) (ht : t ≠ 0)
    (hi : i ≠ 0) (hj : j ≠ 0) :
    generate_potential_table E ff dic params x t i j =
      E (potAccum ff dic params x t i j) := by
  simp [generate_potential_table, ht, hi, hj]

/-! ## Helper lemmas : scanMax and argmaxRange -/

theorem scanMax_acc (f : ℕ → ℚ) :
    ∀ (l : List ℕ) (v0 : ℚ) (j0 : ℕ), v0 = f j0 →
      ∃ v j, scanMax f l (some (v0, j0)) = some (v, j) ∧ v = f j ∧
        (j = j0 ∨ j ∈ l) ∧ v0 ≤ v ∧ ∀ i ∈ l, f i ≤ v := by
  intro l
  induction l with
  | nil =>
      intro v0 j0 h0
      exact ⟨v0, j0, by simp [scanMax], h0, Or.inl rfl, le_refl v0, by simp⟩
  | cons a r ih =>
      intro v0 j0 h0
      by_cases hlt : v0 < f a
      · obtain ⟨v, j, hsm, hvj, hjmem, hle, hall⟩ := ih (f a) a rfl
        refine ⟨v, j, ?_, hvj, ?_, le_trans (le_of_lt hlt) hle, ?_⟩
        · simpa [scanMax, hlt] using hsm
        · rcases hjmem with h | h
          · exact Or.inr (by simp [h])
          · exact Or.inr (by simp [h])
        · intro i hi
          rcases List.mem_cons.1 hi with h | h
          · subst h; exact hle
          · exact hall i h
      · obtain ⟨v, j, hsm, hvj, hjmem, hle, hall⟩ := ih v0 j0 h0
        refine ⟨v, j, ?_, hvj, ?_, hle, ?_⟩
        · simpa [scanMax, hlt] using hsm
        · rcases hjmem with h | h
          · exact Or.inl h
          · exact Or.inr (by simp [h])
        · intro i hi
          rcases List.mem_cons.1 hi with h | h
          · subst h; exact le_trans (not_lt.1 hlt) hle
          · exact hall i h

theorem scanMax_none (f : ℕ → ℚ) (l : List ℕ) (h : l ≠ []) :
    ∃ v j, scanMax f l none = some (v, j) ∧ v = f j ∧ j ∈ l ∧ ∀ i ∈ l, f i ≤ v := by
  cases l with
  | nil => exact absurd rfl h
  | cons a r =>
      obtain ⟨v, j, hsm, hvj, hjmem, hle, hall⟩ := scanMax_acc f r (f a) a rfl
      refine ⟨v, j, by simpa [scanMax] using hsm, hvj, ?_, ?_⟩
      · rcases hjmem with hj | hj
        · simp [hj]
        · simp [hj]
      · intro i hi
        rcases List.mem_cons.1 hi with hi2 | hi2
        · rw [hi2]; exact hle
        · exact hall i hi2

theorem scanMax_stays (f : ℕ → ℚ) :
    ∀ (l : List ℕ) (v0 : ℚ) (j0 : ℕ), (∀ i ∈ l, f i ≤ v0) →
      scanMax f l (some (v0, j0)) = some (v0, j0) := by
  intro l
  induction l with
  | nil => intro v0 j0 _; simp [scanMax]
  | cons a r ih =>
      intro v0 j0 hall
      have ha : ¬ v0 < f a := not_lt.2 (hall a (by simp))
      simp only [scanMax, ha, if_false]
      exact ih v0 j0 (fun i hi => hall i (by simp [hi]))

theorem argmaxRange_of_pos (f : ℕ → ℚ) (n : ℕ) (hn : 2 ≤ n) (h0 : f 0 = 0)
    (h1 : 0 < f 1) : 1 ≤ argmaxRange f n ∧ argmaxRange f n < n := by
  have hne : List.range n ≠ [] := by
    simp only [ne_eq, List.range_eq_nil]
    omega
  obtain ⟨v, j, hsm, hvj, hjmem, hall⟩ := scanMax_none f (List.range n) hne
  have hjn : j < n := List.mem_range.1 hjmem
  have h1mem : (1 : ℕ) ∈ List.range n := List.mem_range.2 (by omega)
  have hpos : 0 < v := lt_of_lt_of_le h1 (hall 1 h1mem)
  have hj1 : 1 ≤ j := by
    rcases Nat.eq_zero_or_pos j with hj0 | hj0
    · exfalso
      rw [hj0, h0] at hvj
      rw [hvj] at hpos
      exact lt_irrefl 0 hpos
    · exact hj0
  constructor
  · simpa [argmaxRange, hsm] using hj1
  · simpa [argmaxRange, hsm] using hjn

theorem argmaxRange_zero_of_nonpos (f : ℕ → ℚ) (n : ℕ) (h : ∀ i, 0 < i → i < n → f i ≤ f 0) :
    argmaxRange f n = 0 := by
  match n with
  | 0 => simp [argmaxRange, scanMax]
  | m + 1 =>
      have hrange : List.range (m + 1) = 0 :: (List.range m).map Nat.succ :=
        List.range_succ_eq_map m
      have hall : ∀ i ∈ (List.range m).map Nat.succ, f i ≤ f 0 := by
        intro i hi
        rcases List.mem_map.1 hi with ⟨u, hu, hui⟩
        have : u < m := List.mem_range.1 hu
        exact h i (by omega) (by omega)
      simp [argmaxRange, hrange, scanMax, scanMax_stays f _ (f 0) 0 hall]

/-! ## Helper lemmas : the free Viterbi recursion -/

theorem maxTbl_zero_col (n : ℕ) (pot : ℕ → Mat) (t : ℕ) :
    maxTbl n pot (t + 1) 0 = (0, 0) := by
  simp [maxTbl]

theorem maxTbl_succ_eq (n : ℕ) (pot : ℕ → Mat) (t y : ℕ) (hy : 1 ≤ y ∧ y < n) :
    maxTbl n pot (t + 1) y =
      match scanMax (fun prev => (maxTbl n pot t prev).1 * pot (t + 1) prev y)
        (List.range' 1 (n - 1)) none with
      | some vj => vj
      | none => (0, 0) := by
  simp [maxTbl, hy]

theorem range'_ne_nil_of_two_le (n : ℕ) (hn : 2 ≤ n) : List.range' 1 (n - 1) ≠ [] := by
  have : (List.range' 1 (n - 1)).length = n - 1 := by simp
  intro hc
  rw [hc] at this
  simp at this
  omega

theorem mem_range'_bounds {m n : ℕ} (h : m ∈ List.range' 1 (n - 1)) (hn : 2 ≤ n) :
    1 ≤ m ∧ m < n := by
  have := List.mem_range'_1.1 h
  omega

theorem maxTbl_pos {Obs : Type} (E : ℚ → ℚ) (hE : ∀ q, 0 < E q)
    (ff : List Obs → ℕ → List String) (dic : FeatureDic) (params : ℕ → ℚ)
    (x : List Obs) (n : ℕ) (hn : 2 ≤ n) :
    ∀ t y, 1 ≤ y → y < n →
      0 < (maxTbl n (generate_potential_table E ff dic params x) t y).1 := by
  intro t
  induction t with
  | zero =>
      intro y hy1 _
      have := genPot_t0_start E ff dic params x y
      simp only [maxTbl, STARTING_LABEL_INDEX] at *
      rw [this]
      exact hE _
  | succ u ih =>
      intro y hy1 hyn
      obtain ⟨v, j, hsm, hvj, hjmem, _⟩ :=
        scanMax_none (fun prev =>
          (maxTbl n (generate_potential_table E ff dic params x) u prev).1 *
            generate_potential_table E ff dic params x (u + 1) prev y)
          (List.range' 1 (n - 1)) (range'_ne_nil_of_two_le n hn)
      obtain ⟨hj1, hjn⟩ := mem_range'_bounds hjmem hn
      rw [maxTbl_succ_eq n _ u y ⟨hy1, hyn⟩, hsm]
      have hcell := genPot_pos_cell E ff dic params x (u + 1) j y (by omega)
        (by omega) (by omega)
      have hpos : 0 < (maxTbl n (generate_potential_table E ff dic params x) u j).1 *
          generate_potential_table E ff dic params x (u + 1) j y := by
        rw [hcell]
        exact mul_pos (ih j hj1 hjn) (hE _)
      simpa [hvj] using hpos

theorem maxTbl_amax_mem (n : ℕ) (pot : ℕ → Mat) (hn : 2 ≤ n) (t y : ℕ)
    (hy1 : 1 ≤ y) (hyn : y < n) :
    1 ≤ (maxTbl n pot (t + 1) y).2 ∧ (maxTbl n pot (t + 1) y).2 < n := by
  obtain ⟨v, j, hsm, _, hjmem, _⟩ :=
    scanMax_none (fun prev => (maxTbl n pot t prev).1 * pot (t + 1) prev y)
      (List.range' 1 (n - 1)) (range'_ne_nil_of_two_le n hn)
  obtain ⟨hj1, hjn⟩ := mem_range'_bounds hjmem hn
  rw [maxTbl_succ_eq n pot t y ⟨hy1, hyn⟩, hsm]
  exact ⟨hj1, hjn⟩

theorem vitChain_length (amax : ℕ → ℕ → ℕ) : ∀ t next, (vitChain amax t next).length = t + 1
  | 0, _ => by simp [vitChain]
  | t + 1, next => by simp [vitChain, vitChain_length amax t]

theorem vitChain_ne_nil (amax : ℕ → ℕ → ℕ) (t next : ℕ) : vitChain amax t next ≠ [] := by
  match t with
  | 0 => simp [vitChain]
  | u + 1 => simp [vitChain]

theorem vitChain_dropLast_mem (amax : ℕ → ℕ → ℕ) (n : ℕ)
    (hamax : ∀ t y, 1 ≤ y → y < n → 1 ≤ amax (t + 1) y ∧ amax (t + 1) y < n) :
    ∀ t next, 1 ≤ next → next < n →
      ∀ e ∈ (vitChain amax t next).dropLast, 1 ≤ e ∧ e < n := by
  intro t
  induction t with
  | zero => intro next _ _ e he; simp [vitChain] at he
  | succ u ih =>
      intro next h1 h2 e he
      have hx := hamax u next h1 h2
      have hrest := vitChain_ne_nil amax u (amax (u + 1) next)
      rw [show vitChain amax (u + 1) next =
        amax (u + 1) next :: vitChain amax u (amax (u + 1) next) from rfl] at he
      rw [List.dropLast_cons_of_ne_nil hrest] at he
      rcases List.mem_cons.1 he with h | h
      · rw [h]; exact hx
      · exact ih (amax (u + 1) next) hx.1 hx.2 e h

theorem drop_one_reverse (l : List ℕ) : l.reverse.drop 1 = l.dropLast.reverse := by
  induction l using List.reverseRecOn with
  | nil => simp
  | append_singleton l a _ => simp

/-! ## C6 -/

/-- C6 counterexample: for a length-1 input with all-zero parameters, the
final argmax of the free Viterbi decoder runs over the whole first table row,
where the starting-label column holds exp 0 = 1 and ties resolve to the first
index, so the decoded sequence is exactly the starting label; the claim that
no output position ever holds the synthetic starting label is false. -/
theorem viterbi_length_one_starting_label :
    (viterbiIds 2 1 potC6).length = 1 ∧
    STARTING_LABEL_INDEX ∈ viterbiIds 2 1 potC6 := by
  decide

/-- C6 amended: for every input sequence of length at least 2 (the claim
holds for all lengths only as far as the output length goes), free-mode
Viterbi decoding over the generated potential tables returns a label-id
sequence whose length equals the length of x and in which no position holds
the synthetic starting label; at length 1 the starting label can be emitted
(see the counterexample). -/
theorem viterbi_free_decode_shape {Obs : Type} (E : ℚ → ℚ)
    (ff : List Obs → ℕ → List String) (dic : FeatureDic) (params : ℕ → ℚ)
    (x : List Obs) (n : ℕ) (hE : ∀ q, 0 < E q) (hn : 2 ≤ n) (hT : 2 ≤ x.length) :
    (viterbiIds n x.length (generate_potential_table E ff dic params x)).length =
      x.length ∧
    ∀ id0 ∈ viterbiIds n x.length (generate_potential_table E ff dic params x),
      id0 ≠ STARTING_LABEL_INDEX := by
  obtain ⟨Tp, hTp⟩ : ∃ Tp, x.length = Tp + 1 := ⟨x.length - 1, by omega⟩
  have hTp1 : 1 ≤ Tp := by omega
  set pot := generate_potential_table E ff dic params x with hpot
  set next0 := argmaxRange (fun y => (maxTbl n pot Tp y).1) n with hnext0
  set chain := vitChain (fun t y => (maxTbl n pot t y).2) Tp next0 with hchain
  have hids : viterbiIds n x.length pot = ((next0 :: chain).reverse).drop 1 := by
    rw [hTp]
    rfl
  have hclen : chain.length = Tp + 1 := vitChain_length _ Tp next0
  constructor
  · rw [hids]
    simp [hclen, hTp]
  · -- membership analysis
    obtain ⟨u, hu⟩ : ∃ u, Tp = u + 1 := ⟨Tp - 1, by omega⟩
    have hnx := argmaxRange_of_pos (fun y => (maxTbl n pot Tp y).1) n hn
      (by rw [hu]; simp [maxTbl_zero_col])
      (maxTbl_pos E hE ff dic params x n hn Tp 1 (le_refl 1) (by omega))
    intro id0 hid0
    rw [hids, drop_one_reverse] at hid0
    have hmem : id0 ∈ next0 :: chain.dropLast := by
      have : (next0 :: chain).dropLast = next0 :: chain.dropLast :=
        List.dropLast_cons_of_ne_nil (vitChain_ne_nil _ Tp next0)
      rw [this] at hid0
      exact List.mem_reverse.1 hid0
    have hamax : ∀ t y, 1 ≤ y → y < n →
        1 ≤ (maxTbl n pot (t + 1) y).2 ∧ (maxTbl n pot (t + 1) y).2 < n :=
      fun t y h1 h2 => maxTbl_amax_mem n pot hn t y h1 h2
    rcases List.mem_cons.1 hmem with h | h
    · rw [h]
      simp [STARTING_LABEL_INDEX]
      omega
    · have := vitChain_dropLast_mem (fun t y => (maxTbl n pot t y).2) n
        (fun t y h1 h2 => hamax t y h1 h2) Tp next0 hnx.1 hnx.2 id0 h
      simp [STARTING_LABEL_INDEX]
      omega

/-- Witness for the amended C6 theorem: the concrete zero-parameter length-2
decode, where the theorem's conclusions are checked on potC5-style tables. -/
theorem viterbi_free_decode_shape_witness :
    (viterbiIds 2 2 (generate_potential_table expOne ffNone [] (fun _ => 0)
      [(), ()])).length = 2 ∧
    ∀ id0 ∈ viterbiIds 2 2 (generate_potential_table expOne ffNone [] (fun _ => 0)
      [(), ()]), id0 ≠ STARTING_LABEL_INDEX :=
  viterbi_free_decode_shape expOne ffNone [] (fun _ => 0) [(), ()] 2
    (fun q => by norm_num [expOne]) (by norm_num) (by norm_num)

/-! ## Helper lemmas : viterbi_fix_history loops -/

theorem fixPinLoop_cells (ry : ℕ → ℕ) :
    ∀ (l : List ℕ) (ma : Mat × (ℕ → ℕ → ℕ)) (a b : ℕ),
      ((fixPinLoop ry l ma).1 a b = if a ∈ l ∧ b = ry a then 1 else ma.1 a b) ∧
      ((fixPinLoop ry l ma).2 a b =
        if a ∈ l ∧ b = ry a then ry (a - 1) else ma.2 a b) := by
  intro l
  induction l with
  | nil => intro ma a b; simp [fixPinLoop]
  | cons t rest ih =>
      intro ma a b
      have h := ih (mupdQ ma.1 t (ry t) 1, mupdN ma.2 t (ry t) (ry (t - 1))) a b
      by_cases hra : a ∈ rest ∧ b = ry a
      · constructor
        · rw [show fixPinLoop ry (t :: rest) ma =
            fixPinLoop ry rest (mupdQ ma.1 t (ry t) 1,
              mupdN ma.2 t (ry t) (ry (t - 1))) from rfl, h.1]
          simp [hra, hra.1, hra.2, List.mem_cons]
        · rw [show fixPinLoop ry (t :: rest) ma =
            fixPinLoop ry rest (mupdQ ma.1 t (ry t) 1,
              mupdN ma.2 t (ry t) (ry (t - 1))) from rfl, h.2]
          simp [hra, hra.1, hra.2, List.mem_cons]
      · by_cases hat : a = t ∧ b = ry t
        · have hbra : b = ry a := by rw [hat.1]; exact hat.2
          constructor
          · rw [show fixPinLoop ry (t :: rest) ma =
              fixPinLoop ry rest (mupdQ ma.1 t (ry t) 1,
                mupdN ma.2 t (ry t) (ry (t - 1))) from rfl, h.1]
            simp [hra, mupdQ, hat.1, hat.2, hbra, List.mem_cons]
          · rw [show fixPinLoop ry (t :: rest) ma =
              fixPinLoop ry rest (mupdQ ma.1 t (ry t) 1,
                mupdN ma.2 t (ry t) (ry (t - 1))) from rfl, h.2]
            simp [hra, mupdN, hat.1, hat.2, hbra, List.mem_cons]
        · have hnot : ¬ (a ∈ t :: rest ∧ b = ry a) := by
            intro hc
            rcases List.mem_cons.1 hc.1 with h1 | h1
            · exact hat ⟨h1, by rw [← h1]; exact hc.2⟩
            · exact hra ⟨h1, hc.2⟩
          constructor
          · rw [show fixPinLoop ry (t :: rest) ma =
              fixPinLoop ry rest (mupdQ ma.1 t (ry t) 1,
                mupdN ma.2 t (ry t) (ry (t - 1))) from rfl, h.1]
            simp only [if_neg hra, if_neg hnot, mupdQ]
            rw [if_neg hat]
          · rw [show fixPinLoop ry (t :: rest) ma =
              fixPinLoop ry rest (mupdQ ma.1 t (ry t) 1,
                mupdN ma.2 t (ry t) (ry (t - 1))) from rfl, h.2]
            simp only [if_neg hra, if_neg hnot, mupdN]
            rw [if_neg hat]

theorem fixFinalLoop_cells (pot : ℕ → Mat) (lastT readRow prevIdx : ℕ)
    (hne : readRow ≠ lastT) :
    ∀ (l : List ℕ) (ma : Mat × (ℕ → ℕ → ℕ)) (a b : ℕ),
      ((fixFinalLoop pot lastT readRow prevIdx l ma).1 a b =
        if a = lastT ∧ b ∈ l then ma.1 readRow prevIdx * pot lastT prevIdx b
        else ma.1 a b) ∧
      ((fixFinalLoop pot lastT readRow prevIdx l ma).2 a b =
        if a = lastT ∧ b ∈ l then prevIdx else ma.2 a b) := by
  intro l
  induction l with
  | nil => intro ma a b; simp [fixFinalLoop]
  | cons lab rest ih =>
      intro ma a b
      set ma2 : Mat × (ℕ → ℕ → ℕ) :=
        (mupdQ ma.1 lastT lab (ma.1 readRow prevIdx * pot lastT prevIdx lab),
         mupdN ma.2 lastT lab prevIdx) with hma2
      have hstep : fixFinalLoop pot lastT readRow prevIdx (lab :: rest) ma =
          fixFinalLoop pot lastT readRow prevIdx rest ma2 := rfl
      have hread : ma2.1 readRow prevIdx = ma.1 readRow prevIdx := by
        simp [hma2, mupdQ, hne]
      have h := ih ma2 a b
      by_cases hbr : a = lastT ∧ b ∈ rest
      · constructor
        · rw [hstep, h.1, if_pos hbr, hread,
            if_pos ⟨hbr.1, List.mem_cons_of_mem lab hbr.2⟩]
        · rw [hstep, h.2, if_pos hbr, if_pos ⟨hbr.1, List.mem_cons_of_mem lab hbr.2⟩]
      · by_cases hb1 : a = lastT ∧ b = lab
        · constructor
          · rw [hstep, h.1, if_neg hbr,
              if_pos ⟨hb1.1, by rw [hb1.2]; exact List.mem_cons_self lab rest⟩]
            simp [hma2, mupdQ, hb1.1, hb1.2]
          · rw [hstep, h.2, if_neg hbr,
              if_pos ⟨hb1.1, by rw [hb1.2]; exact List.mem_cons_self lab rest⟩]
            simp [hma2, mupdN, hb1.1, hb1.2]
        · have hnot : ¬ (a = lastT ∧ b ∈ lab :: rest) := by
            intro hc
            rcases List.mem_cons.1 hc.2 with h1 | h1
            · exact hb1 ⟨hc.1, h1⟩
            · exact hbr ⟨hc.1, h1⟩
          constructor
          · rw [hstep, h.1, if_neg hbr, if_neg hnot]
            simp only [hma2, mupdQ]
            rw [if_neg hb1]
          · rw [hstep, h.2, if_neg hbr, if_neg hnot]
            simp only [hma2, mupdN]
            rw [if_neg hb1]

theorem fixFinalLoop_cells_zero (pot : ℕ → Mat) (lastT readRow prevIdx : ℕ)
    (hz : ∀ lab, pot lastT prevIdx lab = 0) :
    ∀ (l : List ℕ) (ma : Mat × (ℕ → ℕ → ℕ)) (a b : ℕ),
      ((fixFinalLoop pot lastT readRow prevIdx l ma).1 a b =
        if a = lastT ∧ b ∈ l then 0 else ma.1 a b) ∧
      ((fixFinalLoop pot lastT readRow prevIdx l ma).2 a b =
        if a = lastT ∧ b ∈ l then prevIdx else ma.2 a b) := by
  intro l
  induction l with
  | nil => intro ma a b; simp [fixFinalLoop]
  | cons lab rest ih =>
      intro ma a b
      have hv : ma.1 readRow prevIdx * pot lastT prevIdx lab = 0 := by
        rw [hz lab, mul_zero]
      have hstep : fixFinalLoop pot lastT readRow prevIdx (lab :: rest) ma =
          fixFinalLoop pot lastT readRow prevIdx rest
            (mupdQ ma.1 lastT lab (ma.1 readRow prevIdx * pot lastT prevIdx lab),
             mupdN ma.2 lastT lab prevIdx) := rfl
      have h := ih (mupdQ ma.1 lastT lab (ma.1 readRow prevIdx * pot lastT prevIdx lab),
        mupdN ma.2 lastT lab prevIdx) a b
      by_cases hbr : a = lastT ∧ b ∈ rest
      · constructor
        · rw [hstep, h.1, if_pos hbr, if_pos ⟨hbr.1, List.mem_cons_of_mem lab hbr.2⟩]
        · rw [hstep, h.2, if_pos hbr, if_pos ⟨hbr.1, List.mem_cons_of_mem lab hbr.2⟩]
      · by_cases hb1 : a = lastT ∧ b = lab
        · constructor
          · rw [hstep, h.1, if_neg hbr,
              if_pos ⟨hb1.1, by rw [hb1.2]; exact List.mem_cons_self lab rest⟩]
            simp [mupdQ, hb1.1, hb1.2, hv]
          · rw [hstep, h.2, if_neg hbr,
              if_pos ⟨hb1.1, by rw [hb1.2]; exact List.mem_cons_self lab rest⟩]
            simp [mupdN, hb1.1, hb1.2]
        · have hnot : ¬ (a = lastT ∧ b ∈ lab :: rest) := by
            intro hc
            rcases List.mem_cons.1 hc.2 with h1 | h1
            · exact hb1 ⟨hc.1, h1⟩
            · exact hbr ⟨hc.1, h1⟩
          constructor
          · rw [hstep, h.1, if_neg hbr, if_neg hnot]
            simp only [mupdQ]
            rw [if_neg hb1]
          · rw [hstep, h.2, if_neg hbr, if_neg hnot]
            simp only [mupdN]
            rw [if_neg hb1]

theorem fix_history_length_one_starting {Obs : Type} (E : ℚ → ℚ)
    (ff : List Obs → ℕ → List String) (dic : FeatureDic) (params : ℕ → ℚ)
    (x : List Obs) (n : ℕ) (arr y : List String) (hy : y.length = 1)
    (hreal : 1 ≤ List.indexOf (y.getD 0 "") arr) :
    viterbi_fix_history n 1 (generate_potential_table E ff dic params x) arr y =
      [STARTING_LABEL_INDEX] := by
  have hz : ∀ lab, generate_potential_table E ff dic params x 0
      (List.indexOf (y.getD 0 "") arr) lab = 0 := fun lab =>
    genPot_t0_boundary E ff dic params x _ lab hreal
  have hsub : (((1 : ℕ) : ℤ) - 2) = -1 := by norm_num
  have hprev : List.indexOf (pyGetD y (((1 : ℕ) : ℤ) - 2)) arr =
      List.indexOf (y.getD 0 "") arr := by
    rw [hsub]
    have h2 : pyGetD y (-1) = y.getD 0 "" := by simp [pyGetD, hy]
    rw [h2]
  have hrow : pyRow 1 (((1 : ℕ) : ℤ) - 2) = 0 := by rw [hsub]; simp [pyRow]
  have hpin : List.range' 1 (1 - 2) = ([] : List ℕ) := rfl
  simp only [viterbi_fix_history, hprev, hrow, hpin, fixPinLoop,
    show (1 : ℕ) - 1 = 0 from rfl]
  set ry0 := List.indexOf (y.getD 0 "") arr with hry0
  set m0 : Mat × (ℕ → ℕ → ℕ) :=
    (mupdQ (fun _ _ => 0) 0 ry0 1, fun _ _ => 0) with hm0
  have hc1 := fun l ma a b =>
    (fixFinalLoop_cells_zero (generate_potential_table E ff dic params x) 0 0 ry0
      hz l ma a b).1
  have hc2 := fun l ma a b =>
    (fixFinalLoop_cells_zero (generate_potential_table E ff dic params x) 0 0 ry0
      hz l ma a b).2
  have hnotmem : (0 : ℕ) ∉ List.range' 1 (n - 1) := by
    intro hc
    have := List.mem_range'_1.1 hc
    omega
  have harg : argmaxRange (fun ylab =>
      (fixFinalLoop (generate_potential_table E ff dic params x) 0 0 ry0
        (List.range' 1 (n - 1)) m0).1 0 ylab) n = 0 := by
    apply argmaxRange_zero_of_nonpos
    intro i hi hin
    have hmem : i ∈ List.range' 1 (n - 1) := by
      apply List.mem_range'_1.2
      omega
    rw [hc1, hc1, if_pos ⟨rfl, hmem⟩, if_neg (by simp [hnotmem])]
    have : m0.1 0 0 = 0 := by
      simp [hm0, mupdQ]
      omega
    rw [this]
  rw [harg]
  simp only [vitChain]
  rw [hc2, if_neg (by simp [hnotmem])]
  have : m0.2 0 0 = 0 := rfl
  rw [this]
  rfl

/-! ## C8 -/

/-- C8 counterexample: for a length-1 sequence, history-pinned decoding does
not reduce to a single potential lookup.  The final-step loop reads the true
label and the max table at Python index -1, which wraps around to position 0,
multiplies the pinned cell by the t = 0 boundary-zeroed potential row of the
true label, overwrites the pinned cell with 0, and ends up emitting the
starting label; the single potential lookup the claim describes would emit
label index 2, whose starting-row potential is strictly largest here. -/
theorem fix_history_length_one_counterexample :
    viterbi_fix_history 3 1 potC8 ["*", "A", "B"] ["A"] = [STARTING_LABEL_INDEX] ∧
    singleLookupIds 3 potC8 = [2] ∧
    viterbi_fix_history 3 1 potC8 ["*", "A", "B"] ["A"] ≠ singleLookupIds 3 potC8 := by
  decide

/-- C8 amended: for a length-1 sequence, free-mode Viterbi decoding does
reduce to the single potential lookup over the starting row of table 0 with
no transition step, but history-pinned decoding does not: it reads the label
history and the max table at index -1 (wrapping to position 0), so whenever
the supplied true label is a real label its final row is computed through
the boundary-zeroed t = 0 potentials and the decoder returns the starting
label instead of a potential-lookup argmax. -/
theorem length_one_decoding_modes {Obs : Type} (E : ℚ → ℚ)
    (ff : List Obs → ℕ → List String) (dic : FeatureDic) (params : ℕ → ℚ)
    (x : List Obs) (n : ℕ) (arr y : List String) (hy : y.length = 1)
    (hreal : 1 ≤ List.indexOf (y.getD 0 "") arr) :
    (∀ m : ℕ, ∀ pot : ℕ → Mat, viterbiIds m 1 pot = singleLookupIds m pot) ∧
    viterbi_fix_history n 1 (generate_potential_table E ff dic params x) arr y =
      [STARTING_LABEL_INDEX] :=
  ⟨fun _ _ => rfl,
   fix_history_length_one_starting E ff dic params x n arr y hy hreal⟩

/-- Witness for the amended C8 theorem at the concrete potC8 instance. -/
theorem length_one_decoding_modes_witness :
    viterbiIds 3 1 potC8 = singleLookupIds 3 potC8 ∧
    viterbi_fix_history 3 1 (generate_potential_table expShift ffC8 dicC8 paramsC8 [()])
      ["*", "A", "B"] ["A"] = [STARTING_LABEL_INDEX] :=
  ⟨(length_one_decoding_modes expShift ffC8 dicC8 paramsC8 [()] 3 ["*", "A", "B"] ["A"]
      (by decide) (by decide)).1 3 potC8,
   (length_one_decoding_modes expShift ffC8 dicC8 paramsC8 [()] 3 ["*", "A", "B"] ["A"]
      (by decide) (by decide)).2⟩

/-- The (max table, argmax table) state of viterbi_fix_history after the
pinning loop and the final-step loop, named for reasoning. -/
def fixMa2 (n T : ℕ) (pot : ℕ → Mat) (arr y : List String) : Mat × (ℕ → ℕ → ℕ) :=
  fixFinalLoop pot (T - 1) (pyRow T ((T : ℤ) - 2))
    (arr.indexOf (pyGetD y ((T : ℤ) - 2))) (List.range' 1 (n - 1))
    (fixPinLoop (fun t => arr.indexOf (y.getD t "")) (List.range' 1 (T - 2))
      (mupdQ (fun _ _ => 0) 0 (arr.indexOf (y.getD 0 "")) 1, fun _ _ => 0))

theorem viterbi_fix_history_eq (n T : ℕ) (pot : ℕ → Mat) (arr y : List String)
    (hT : T ≠ 0) :
    viterbi_fix_history n T pot arr y =
      ((argmaxRange (fun ylab => (fixMa2 n T pot arr y).1 (T - 1) ylab) n ::
        vitChain (fun t ylab => (fixMa2 n T pot arr y).2 t ylab) (T - 1)
          (argmaxRange (fun ylab => (fixMa2 n T pot arr y).1 (T - 1) ylab) n)).reverse).drop
        1 := by
  cases T with
  | zero => exact absurd rfl hT
  | succ Tp => rfl

theorem vitChain_pinned (amaxf : ℕ → ℕ → ℕ) (ry : ℕ → ℕ) :
    ∀ u, (∀ v, 1 ≤ v → v ≤ u → amaxf v (ry v) = ry (v - 1)) →
      vitChain amaxf u (ry u) = ((List.range u).reverse.map ry) ++ [amaxf 0 (ry 0)] := by
  intro u
  induction u with
  | zero => intro _; simp [vitChain]
  | succ v ih =>
      intro hv
      have h1 : amaxf (v + 1) (ry (v + 1)) = ry v := by
        have := hv (v + 1) (by omega) (le_refl (v + 1))
        simpa using this
      have h2 : vitChain amaxf (v + 1) (ry (v + 1)) =
          amaxf (v + 1) (ry (v + 1)) :: vitChain amaxf v (amaxf (v + 1) (ry (v + 1))) := rfl
      rw [h2, h1, ih (fun w hw1 hw2 => hv w hw1 (by omega))]
      rw [List.range_succ]
      simp

/-! ## C7 -/

/-- C7: for every input sequence x with true label sequence y of length
T at least 2 (with real labels that the label array contains), history-pinned
decoding returns a sequence of length T whose positions 0 .. T-2 echo
y[0] .. y[T-2] exactly (both as label ids and after the label-array mapping),
with only the final position chosen by the model, conditioned through the
final-step loop on the true label at position T-2. -/
theorem viterbi_fix_history_pins_true_history {Obs : Type} (E : ℚ → ℚ)
    (hE : ∀ q, 0 < E q) (ff : List Obs → ℕ → List String) (dic : FeatureDic)
    (params : ℕ → ℚ) (x : List Obs) (n : ℕ) (arr y : List String)
    (hT : 2 ≤ x.length) (hlen : y.length = x.length) (hn : 2 ≤ n)
    (hmem : ∀ t, t < y.length → y.getD t "" ∈ arr)
    (hreal : ∀ t, t < y.length → 1 ≤ List.indexOf (y.getD t "") arr) :
    (viterbi_fix_history n x.length (generate_potential_table E ff dic params x)
      arr y).length = x.length ∧
    (∀ t, t < x.length - 1 →
      (viterbi_fix_history n x.length (generate_potential_table E ff dic params x)
        arr y).get? t = some (List.indexOf (y.getD t "") arr)) ∧
    (∀ t, t < x.length - 1 →
      ((viterbi_fix_history n x.length (generate_potential_table E ff dic params x)
        arr y).map (fun i => arr.get? i)).get? t = some (some (y.getD t ""))) := by
  obtain ⟨Tp, hTeq⟩ : ∃ Tp, x.length = Tp + 1 := ⟨x.length - 1, by omega⟩
  have hTp1 : 1 ≤ Tp := by omega
  set pot := generate_potential_table E ff dic params x with hpotdef
  set T := Tp + 1 with hTdef
  set ry : ℕ → ℕ := fun t => List.indexOf (y.getD t "") arr with hrydef
  -- index arithmetic for the final-step loop
  have hcast : ((T : ℕ) : ℤ) - 2 = ((Tp - 1 : ℕ) : ℤ) := by
    rw [Nat.cast_sub hTp1]
    push_cast [hTdef]
    ring
  have hprevEq : List.indexOf (pyGetD y (((T : ℕ) : ℤ) - 2)) arr = ry (Tp - 1) := by
    rw [hcast]
    have h2 : pyGetD y ((Tp - 1 : ℕ) : ℤ) = y.getD (Tp - 1) "" := by
      simp [pyGetD]
    rw [h2]
  have hrowEq : pyRow T (((T : ℕ) : ℤ) - 2) = Tp - 1 := by
    rw [hcast]
    simp [pyRow]
  have hT1 : T - 1 = Tp := rfl
  have hT2 : T - 2 = Tp - 1 := rfl
  -- the two table states
  set ma1 : Mat × (ℕ → ℕ → ℕ) :=
    fixPinLoop ry (List.range' 1 (Tp - 1))
      (mupdQ (fun _ _ => 0) 0 (ry 0) 1, fun _ _ => 0) with hma1def
  have hma2def : fixMa2 n T pot arr y =
      fixFinalLoop pot Tp (Tp - 1) (ry (Tp - 1)) (List.range' 1 (n - 1)) ma1 := by
    rw [fixMa2, hprevEq, hrowEq, hT1, hT2, hma1def, hrydef]
  have hne : Tp - 1 ≠ Tp := by omega
  have hc1 := fun l ma a b => (fixFinalLoop_cells pot Tp (Tp - 1) (ry (Tp - 1)) hne l ma a b).1
  have hc2 := fun l ma a b => (fixFinalLoop_cells pot Tp (Tp - 1) (ry (Tp - 1)) hne l ma a b).2
  have hp1 := fun l ma a b => (fixPinLoop_cells ry l ma a b).1
  have hp2 := fun l ma a b => (fixPinLoop_cells ry l ma a b).2
  -- the pinned cell read by the final-step loop holds 1
  have hone : ma1.1 (Tp - 1) (ry (Tp - 1)) = 1 := by
    rw [hma1def, hp1]
    rcases Nat.lt_or_ge Tp 2 with h2 | h2
    · have hTp11 : Tp = 1 := by omega
      have hdisj : (Tp - 1) ∉ List.range' 1 (Tp - 1) := by
        intro hc
        have := List.mem_range'_1.1 hc
        omega
      rw [if_neg (by intro hc; exact hdisj hc.1)]
      simp [mupdQ, hTp11]
    · rw [if_pos ⟨List.mem_range'_1.2 (by omega), rfl⟩]
  -- real-label bound for the conditioning label
  have hrealp : 1 ≤ ry (Tp - 1) := hreal (Tp - 1) (by omega)
  -- cells of the final row
  have hrowcell : ∀ lab, 1 ≤ lab → lab < n →
      (fixMa2 n T pot arr y).1 Tp lab = pot Tp (ry (Tp - 1)) lab := by
    intro lab h1 h2
    rw [hma2def, hc1, if_pos ⟨rfl, List.mem_range'_1.2 (by omega)⟩, hone, one_mul]
  have hrow0 : (fixMa2 n T pot arr y).1 Tp 0 = 0 := by
    rw [hma2def, hc1, if_neg ?hnotmem]
    case hnotmem =>
      intro hc
      have := List.mem_range'_1.1 hc.2
      omega
    rw [hp1, if_neg ?hpin0]
    case hpin0 =>
      intro hc
      have := List.mem_range'_1.1 hc.1
      omega
    simp [mupdQ]
    intro hc
    omega
  -- positivity of the real-label cells of the final row
  have hpos : ∀ lab, 1 ≤ lab → lab < n → 0 < (fixMa2 n T pot arr y).1 Tp lab := by
    intro lab h1 h2
    rw [hrowcell lab h1 h2, hpotdef,
      genPot_pos_cell E ff dic params x Tp (ry (Tp - 1)) lab (by omega) (by omega)
        (by omega)]
    exact hE _
  -- the final argmax lands on a real label
  have hnx := argmaxRange_of_pos (fun ylab => (fixMa2 n T pot arr y).1 Tp ylab) n hn
    hrow0 (hpos 1 (le_refl 1) (by omega))
  set nx := argmaxRange (fun ylab => (fixMa2 n T pot arr y).1 Tp ylab) n with hnxdef
  -- backpointers: final row points to the conditioning label
  have hamaxTp : (fixMa2 n T pot arr y).2 Tp nx = ry (Tp - 1) := by
    rw [hma2def, hc2, if_pos ⟨rfl, List.mem_range'_1.2 (by omega)⟩]
  -- backpointers: pinned rows point backwards along the true history
  have hamaxPin : ∀ v, 1 ≤ v → v ≤ Tp - 1 →
      (fixMa2 n T pot arr y).2 v (ry v) = ry (v - 1) := by
    intro v h1 h2
    rw [hma2def, hc2, if_neg (by intro hc; omega)]
    rw [hp2, if_pos ⟨List.mem_range'_1.2 (by omega), rfl⟩]
  -- assemble the decoded sequence
  obtain ⟨u, huTp⟩ : ∃ u, Tp = u + 1 := ⟨Tp - 1, by omega⟩
  have hchainhead : vitChain (fun t ylab => (fixMa2 n T pot arr y).2 t ylab) Tp nx =
      (fixMa2 n T pot arr y).2 Tp nx ::
        vitChain (fun t ylab => (fixMa2 n T pot arr y).2 t ylab) u
          ((fixMa2 n T pot arr y).2 Tp nx) := by
    rw [huTp]
    rfl
  have hchain : vitChain (fun t ylab => (fixMa2 n T pot arr y).2 t ylab) Tp nx =
      ((List.range Tp).reverse.map ry) ++
        [(fixMa2 n T pot arr y).2 0 (ry 0)] := by
    rw [hchainhead, hamaxTp]
    have hu : ry (Tp - 1) = ry u := by rw [huTp]; simp
    rw [hu]
    rw [vitChain_pinned (fun t ylab => (fixMa2 n T pot arr y).2 t ylab) ry u
      (fun v hv1 hv2 => hamaxPin v hv1 (by omega))]
    have : List.range Tp = List.range u ++ [u] := by rw [huTp, List.range_succ]
    rw [this]
    simp
  have hout : viterbi_fix_history n T pot arr y = (List.range Tp).map ry ++ [nx] := by
    rw [viterbi_fix_history_eq n T pot arr y (by omega), hT1, ← hnxdef, hchain,
      drop_one_reverse]
    rw [show nx :: (((List.range Tp).reverse.map ry) ++
      [(fixMa2 n T pot arr y).2 0 (ry 0)]) =
      (nx :: ((List.range Tp).reverse.map ry)) ++
        [(fixMa2 n T pot arr y).2 0 (ry 0)] from rfl]
    rw [List.dropLast_concat]
    simp
  rw [hTeq]
  refine ⟨?_, ?_, ?_⟩
  · rw [hout]
    simp [hTdef]
  · intro t ht
    have htp : t < Tp := by omega
    rw [hout, List.get?_append (by simpa using htp), List.get?_map, List.get?_range htp]
    rfl
  · intro t ht
    have htp : t < Tp := by omega
    rw [hout]
    rw [List.map_append, List.get?_append (by simpa using htp), List.map_map,
      List.get?_map, List.get?_range htp]
    have h5 : arr.get? (ry t) = some (y.getD t "") :=
      List.indexOf_get? (hmem t (by omega))
    simpa [List.get?_eq_getElem?, List.getD_eq_getElem?_getD] using h5

/-- Witness for the C7 theorem at a concrete two-step instance. -/
theorem viterbi_fix_history_pins_true_history_witness :
    (viterbi_fix_history 2 ([(), ()] : List Unit).length
      (generate_potential_table expOne ffNone [] (fun _ => 0) [(), ()])
      ["*", "A"] ["A", "A"]).length = ([(), ()] : List Unit).length ∧
    (∀ t, t < ([(), ()] : List Unit).length - 1 →
      (viterbi_fix_history 2 ([(), ()] : List Unit).length
        (generate_potential_table expOne ffNone [] (fun _ => 0) [(), ()])
        ["*", "A"] ["A", "A"]).get? t =
          some (List.indexOf (["A", "A"].getD t "") ["*", "A"])) ∧
    (∀ t, t < ([(), ()] : List Unit).length - 1 →
      ((viterbi_fix_history 2 ([(), ()] : List Unit).length
        (generate_potential_table expOne ffNone [] (fun _ => 0) [(), ()])
        ["*", "A"] ["A", "A"]).map (fun i => (["*", "A"] : List String).get? i)).get? t =
          some (some (["A", "A"].getD t ""))) :=
  viterbi_fix_history_pins_true_history expOne (fun q => by norm_num [expOne]) ffNone
    [] (fun _ => 0) [(), ()] 2 ["*", "A"] ["A", "A"] (by norm_num) (by norm_num)
    (by norm_num) (by decide) (by decide)

/-! ## C4 : helper lemmas and the log-likelihood formula -/

theorem addProbFids_additive (prob : ℚ) :
    ∀ (fids : List ℕ) (acc : ℕ → ℚ) (i : ℕ),
      addProbFids prob fids acc i = acc i + addProbFids prob fids (fun _ => 0) i := by
  intro fids
  induction fids with
  | nil => intro acc i; simp [addProbFids]
  | cons fid rest ih =>
      intro acc i
      show addProbFids prob rest (fun j => if j = fid then acc j + prob else acc j) i =
        acc i + addProbFids prob rest (fun j => if j = fid then (fun _ => (0 : ℚ)) j + prob
          else (fun _ => (0 : ℚ)) j) i
      rw [ih (fun j => if j = fid then acc j + prob else acc j) i,
        ih (fun j => if j = fid then (fun _ => (0 : ℚ)) j + prob else (fun _ => (0 : ℚ)) j) i]
      by_cases hif : i = fid <;> simp [hif] <;> ring

theorem addExpectedT_additive (pot : ℕ → Mat) (alpha beta : Mat) (Z : ℚ)
    (sdic : List (ℕ × ℚ)) (t : ℕ) :
    ∀ (tf : TFeat) (acc : ℕ → ℚ) (i : ℕ),
      addExpectedT pot alpha beta Z sdic t tf acc i =
        acc i + addExpectedT pot alpha beta Z sdic t tf (fun _ => 0) i := by
  intro tf
  induction tf with
  | nil => intro acc i; simp [addExpectedT]
  | cons e rest ih =>
      intro acc i
      show addExpectedT pot alpha beta Z sdic t rest
          (match probOf pot alpha beta Z sdic t e.1.1 e.1.2 with
           | none => acc
           | some prob => addProbFids prob e.2 acc) i =
        acc i + addExpectedT pot alpha beta Z sdic t rest
          (match probOf pot alpha beta Z sdic t e.1.1 e.1.2 with
           | none => (fun _ => 0)
           | some prob => addProbFids prob e.2 (fun _ => 0)) i
      cases hpr : probOf pot alpha beta Z sdic t e.1.1 e.1.2 with
      | none => exact ih acc i
      | some prob =>
          rw [show (match some prob with
              | none => acc
              | some prob => addProbFids prob e.2 acc) = addProbFids prob e.2 acc from rfl,
            show (match some prob with
              | none => (fun _ => (0 : ℚ))
              | some prob => addProbFids prob e.2 (fun _ => 0)) =
                addProbFids prob e.2 (fun _ => 0) from rfl]
          rw [ih (addProbFids prob e.2 acc) i, ih (addProbFids prob e.2 (fun _ => 0)) i,
            addProbFids_additive prob e.2 acc i]
          ring

theorem addExpectedSeq_additive (pot : ℕ → Mat) (alpha beta : Mat) (Z : ℚ)
    (sdic : List (ℕ × ℚ)) :
    ∀ (tes : List (ℕ × TFeat)) (acc : ℕ → ℚ) (i : ℕ),
      addExpectedSeq pot alpha beta Z sdic tes acc i =
        acc i + addExpectedSeq pot alpha beta Z sdic tes (fun _ => 0) i := by
  intro tes
  induction tes with
  | nil => intro acc i; simp [addExpectedSeq]
  | cons te rest ih =>
      intro acc i
      show addExpectedSeq pot alpha beta Z sdic rest
        (addExpectedT pot alpha beta Z sdic te.1 te.2 acc) i = acc i + _
      rw [ih (addExpectedT pot alpha beta Z sdic te.1 te.2 acc) i]
      show _ = acc i + addExpectedSeq pot alpha beta Z sdic rest
        (addExpectedT pot alpha beta Z sdic te.1 te.2 (fun _ => 0)) i
      rw [ih (addExpectedT pot alpha beta Z sdic te.1 te.2 (fun _ => 0)) i,
        addExpectedT_additive pot alpha beta Z sdic te.1 te.2 acc i]
      ring

theorem llPass_none (E L : ℚ → ℚ) (n fuel : ℕ) (params : ℕ → ℚ) :
    ∀ tfd : List SeqFeat, llPass E L n fuel params tfd none = none := by
  intro tfd
  induction tfd with
  | nil => rfl
  | cons xfs rest ih =>
      show llPass E L n fuel params rest (llSeqStep E L n fuel params none xfs) = none
      rw [show llSeqStep E L n fuel params none xfs = none from rfl]
      exact ih

theorem llSeqStep_match (E L : ℚ → ℚ) (n fuel : ℕ) (params : ℕ → ℚ) (a : ℚ)
    (f : ℕ → ℚ) (xfs : SeqFeat) :
    llSeqStep E L n fuel params (some (a, f)) xfs =
      (match forward_backward n xfs.length (generate_potential_table_train E params xfs)
        fuel with
       | FBRes.ok alpha beta Z sdic =>
          some (a + (L Z + (sdic.map (fun e => L e.2)).sum),
            addExpectedSeq (generate_potential_table_train E params xfs) alpha beta Z sdic
              xfs.enum f)
       | _ => none) := rfl

theorem llPass_shift (E L : ℚ → ℚ) (n fuel : ℕ) (params : ℕ → ℚ) :
    ∀ (tfd : List SeqFeat) (a : ℚ) (f : ℕ → ℚ),
      llPass E L n fuel params tfd (some (a, f)) =
        match llPass E L n fuel params tfd (some (0, fun _ => 0)) with
        | none => none
        | some p => some (a + p.1, fun i => f i + p.2 i) := by
  intro tfd
  induction tfd with
  | nil =>
      intro a f
      show some (a, f) = some (a + 0, fun i => f i + 0)
      simp
  | cons xfs rest ih =>
      intro a f
      show llPass E L n fuel params rest (llSeqStep E L n fuel params (some (a, f)) xfs) =
        match llPass E L n fuel params rest
          (llSeqStep E L n fuel params (some (0, fun _ => 0)) xfs) with
        | none => none
        | some p => some (a + p.1, fun i => f i + p.2 i)
      cases hfb : forward_backward n xfs.length
        (generate_potential_table_train E params xfs) fuel with
      | fuelOut =>
          have h1 : llSeqStep E L n fuel params (some (a, f)) xfs = none := by
            rw [llSeqStep_match, hfb]
          have h0 : llSeqStep E L n fuel params (some (0, fun _ => 0)) xfs = none := by
            rw [llSeqStep_match, hfb]
          rw [h1, h0, llPass_none]
      | raised =>
          have h1 : llSeqStep E L n fuel params (some (a, f)) xfs = none := by
            rw [llSeqStep_match, hfb]
          have h0 : llSeqStep E L n fuel params (some (0, fun _ => 0)) xfs = none := by
            rw [llSeqStep_match, hfb]
          rw [h1, h0, llPass_none]
      | ok alpha beta Z sdic =>
          have h1 : llSeqStep E L n fuel params (some (a, f)) xfs =
              some (a + (L Z + (sdic.map (fun e => L e.2)).sum),
                addExpectedSeq (generate_potential_table_train E params xfs) alpha beta Z
                  sdic xfs.enum f) := by
            rw [llSeqStep_match, hfb]
          have h0 : llSeqStep E L n fuel params (some (0, fun _ => 0)) xfs =
              some ((0 : ℚ) + (L Z + (sdic.map (fun e => L e.2)).sum),
                addExpectedSeq (generate_potential_table_train E params xfs) alpha beta Z
                  sdic xfs.enum (fun _ => 0)) := by
            rw [llSeqStep_match, hfb]
          have hgadd : addExpectedSeq (generate_potential_table_train E params xfs)
              alpha beta Z sdic xfs.enum f =
              fun i => f i + addExpectedSeq (generate_potential_table_train E params xfs)
                alpha beta Z sdic xfs.enum (fun _ => 0) i :=
            funext (fun i => addExpectedSeq_additive _ alpha beta Z sdic xfs.enum f i)
          rw [h1, h0, hgadd,
            ih (a + (L Z + (sdic.map (fun e => L e.2)).sum))
              (fun i => f i + addExpectedSeq (generate_potential_table_train E params xfs)
                alpha beta Z sdic xfs.enum (fun _ => 0) i),
            ih (0 + (L Z + (sdic.map (fun e => L e.2)).sum))
              (addExpectedSeq (generate_potential_table_train E params xfs) alpha beta Z
                sdic xfs.enum (fun _ => 0))]
          cases hrest : llPass E L n fuel params rest (some (0, fun _ => 0)) with
          | none => rfl
          | some p =>
              show some (a + (L Z + (sdic.map (fun e => L e.2)).sum) + p.1,
                  fun i => (f i + addExpectedSeq
                    (generate_potential_table_train E params xfs) alpha beta Z sdic
                    xfs.enum (fun _ => 0) i) + p.2 i) =
                some (a + (0 + (L Z + (sdic.map (fun e => L e.2)).sum) + p.1),
                  fun i => f i + (addExpectedSeq
                    (generate_potential_table_train E params xfs) alpha beta Z sdic
                    xfs.enum (fun _ => 0) i + p.2 i))
              rw [Option.some.injEq, Prod.mk.injEq]
              refine ⟨by ring, funext (fun i => by ring)⟩

theorem llPass_zero_sum (E L : ℚ → ℚ) (n fuel : ℕ) (params : ℕ → ℚ) :
    ∀ (tfd : List SeqFeat) (p : ℚ × (ℕ → ℚ)),
      llPass E L n fuel params tfd (some (0, fun _ => 0)) = some p →
      p.1 = (tfd.map (seqLogZ E L n fuel params)).sum ∧
      ∀ i, p.2 i = (tfd.map (fun xfs => seqExpected E n fuel params xfs i)).sum := by
  intro tfd
  induction tfd with
  | nil =>
      intro p hp
      have : ((0 : ℚ), (fun _ => (0 : ℚ))) = p := by
        simpa [llPass] using hp
      rw [← this]
      simp
  | cons xfs rest ih =>
      intro p hp
      rw [show llPass E L n fuel params (xfs :: rest) (some (0, fun _ => 0)) =
        llPass E L n fuel params rest
          (llSeqStep E L n fuel params (some (0, fun _ => 0)) xfs) from rfl] at hp
      cases hfb : forward_backward n xfs.length
        (generate_potential_table_train E params xfs) fuel with
      | fuelOut =>
          rw [show llSeqStep E L n fuel params (some (0, fun _ => 0)) xfs =
            (match forward_backward n xfs.length
              (generate_potential_table_train E params xfs) fuel with
             | FBRes.ok alpha beta Z sdic =>
                some ((0 : ℚ) + (L Z + (sdic.map (fun e => L e.2)).sum),
                  addExpectedSeq (generate_potential_table_train E params xfs) alpha beta
                    Z sdic xfs.enum (fun _ => 0))
             | _ => none) from rfl, hfb, llPass_none] at hp
          exact absurd hp (by simp)
      | raised =>
          rw [show llSeqStep E L n fuel params (some (0, fun _ => 0)) xfs =
            (match forward_backward n xfs.length
              (generate_potential_table_train E params xfs) fuel with
             | FBRes.ok alpha beta Z sdic =>
                some ((0 : ℚ) + (L Z + (sdic.map (fun e => L e.2)).sum),
                  addExpectedSeq (generate_potential_table_train E params xfs) alpha beta
                    Z sdic xfs.enum (fun _ => 0))
             | _ => none) from rfl, hfb, llPass_none] at hp
          exact absurd hp (by simp)
      | ok alpha beta Z sdic =>
          rw [show llSeqStep E L n fuel params (some (0, fun _ => 0)) xfs =
            (match forward_backward n xfs.length
              (generate_potential_table_train E params xfs) fuel with
             | FBRes.ok alpha beta Z sdic =>
                some ((0 : ℚ) + (L Z + (sdic.map (fun e => L e.2)).sum),
                  addExpectedSeq (generate_potential_table_train E params xfs) alpha beta
                    Z sdic xfs.enum (fun _ => 0))
             | _ => none) from rfl, hfb] at hp
          rw [show (match FBRes.ok alpha beta Z sdic with
             | FBRes.ok alpha beta Z sdic =>
                some ((0 : ℚ) + (L Z + (sdic.map (fun e => L e.2)).sum),
                  addExpectedSeq (generate_potential_table_train E params xfs) alpha beta
                    Z sdic xfs.enum (fun _ => 0))
             | _ => none) =
            some ((0 : ℚ) + (L Z + (sdic.map (fun e => L e.2)).sum),
              addExpectedSeq (generate_potential_table_train E params xfs) alpha beta
                Z sdic xfs.enum (fun _ => 0)) from rfl] at hp
          rw [llPass_shift] at hp
          cases hrest : llPass E L n fuel params rest (some (0, fun _ => 0)) with
          | none =>
              rw [hrest] at hp
              exact absurd hp (by simp)
          | some q =>
              rw [hrest] at hp
              have hq := ih q hrest
              have hpq : (0 + (L Z + (sdic.map (fun e => L e.2)).sum) + q.1,
                  fun i => addExpectedSeq (generate_potential_table_train E params xfs)
                    alpha beta Z sdic xfs.enum (fun _ => 0) i + q.2 i) = p := by
                simpa using hp
              have hlz : seqLogZ E L n fuel params xfs =
                  L Z + (sdic.map (fun e => L e.2)).sum := by
                unfold seqLogZ
                rw [hfb]
              have hexp : seqExpected E n fuel params xfs =
                  addExpectedSeq (generate_potential_table_train E params xfs) alpha beta
                    Z sdic xfs.enum (fun _ => 0) := by
                unfold seqExpected
                rw [hfb]
              rw [← hpq]
              constructor
              · simp only [List.map_cons, List.sum_cons, hlz, hq.1]
                ring
              · intro i
                simp only [List.map_cons, List.sum_cons, hexp, hq.2 i]

/-- C4: the objective evaluation returns the negation of
dot(empirical_counts, params) - total_logZ - sum(params^2)/(2*squared_sigma),
where total_logZ sums, over the training sequences, log Z plus the logs of
all recorded scaling coefficients of that sequence, and the gradient stored
in the same pass and returned by the gradient callback is the negation of
empirical_counts - expected_counts - params/squared_sigma, with
expected_counts the sum over sequences of the per-sequence expected counts. -/
theorem log_likelihood_formula (E L : ℚ → ℚ) (n nf fuel : ℕ) (tfd : List SeqFeat)
    (emp : ℕ → ℚ) (sqSigma : ℚ) (params : ℕ → ℚ)
    (h : (log_likelihood E L n nf fuel tfd emp sqSigma params).isSome = true) :
    ((log_likelihood E L n nf fuel tfd emp sqSigma params).get h).1 =
      -(dotRange nf emp params - (tfd.map (seqLogZ E L n fuel params)).sum -
        dotRange nf params params / (2 * sqSigma)) ∧
    ∀ i, ((log_likelihood E L n nf fuel tfd emp sqSigma params).get h).2 i =
      -(emp i - (tfd.map (fun xfs => seqExpected E n fuel params xfs i)).sum -
        params i / sqSigma) := by
  cases hll : llPass E L n fuel params tfd (some (0, fun _ => 0)) with
  | none =>
      exfalso
      have hnone : log_likelihood E L n nf fuel tfd emp sqSigma params = none := by
        unfold log_likelihood
        rw [hll]
      rw [hnone] at h
      simp at h
  | some tlzExp =>
      have hl : log_likelihood E L n nf fuel tfd emp sqSigma params =
          some ((dotRange nf emp params - tlzExp.1 -
            dotRange nf params params / (sqSigma * 2)) * (-1),
            fun i => (emp i - tlzExp.2 i - params i / sqSigma) * (-1)) := by
        unfold log_likelihood
        rw [hll]
      obtain ⟨h1, h2⟩ := llPass_zero_sum E L n fuel params tfd tlzExp hll
      constructor
      · simp only [hl, Option.get_some]
        rw [h1]
        ring
      · intro i
        simp only [hl, Option.get_some]
        rw [h2 i]
        ring

/-- The constant-zero stand-in for math.log at the point Z = 1-like values
of the concrete C4 witness instance. -/
def lnZero : ℚ → ℚ := fun _ => 0

/-- A one-sequence, one-step training-feature corpus: at t = 0 the bigram
(0, 1) activates feature id 0 and the unigram (-1, 1) activates id 1. -/
def tfdC4 : List SeqFeat := [[[((0, 1), [0]), ((-1, 1), [1])]]]

/-- Witness for the C4 theorem at the concrete one-sequence instance. -/
theorem log_likelihood_formula_witness :
    ((log_likelihood expOne lnZero 2 2 5 tfdC4 (fun _ => 1) 1
      (fun _ => 0)).get (by decide)).1 =
      -(dotRange 2 (fun _ => 1) (fun _ => 0) -
        (tfdC4.map (seqLogZ expOne lnZero 2 5 (fun _ => 0))).sum -
        dotRange 2 (fun _ => 0) (fun _ => 0) / (2 * 1)) ∧
    ((log_likelihood expOne lnZero 2 2 5 tfdC4 (fun _ => 1) 1
      (fun _ => 0)).get (by decide)).2 0 =
      -((fun _ => (1 : ℚ)) 0 -
        (tfdC4.map (fun xfs => seqExpected expOne 2 5 (fun _ => 0) xfs 0)).sum -
        (fun _ => (0 : ℚ)) 0 / 1) :=
  ⟨(log_likelihood_formula expOne lnZero 2 2 5 tfdC4 (fun _ => 1) 1 (fun _ => 0)
      (by decide)).1,
   (log_likelihood_formula expOne lnZero 2 2 5 tfdC4 (fun _ => 1) 1 (fun _ => 0)
      (by decide)).2 0⟩

theorem alookup_append_some {α β : Type} [DecidableEq α] (l m : List (α × β)) (k : α)
    (v : β) (h : alookup l k = some v) : alookup (l ++ m) k = some v := by
  induction l with
  | nil => simp [alookup] at h
  | cons p r ih =>
      obtain ⟨a, b⟩ := p
      by_cases hka : k = a
      · simpa [alookup, hka] using h
      · rw [List.cons_append]
        simp only [alookup, if_neg hka] at h ⊢
        exact ih h

/-- The bigram branch of _add for one feature string with existing entry e
(feature.py lines 130-136). -/
def bigramStep (fs : FeatureSet) (p : ℤ) (y : ℕ) (s : String)
    (e : List (Transition × ℕ)) : FeatureSet :=
  match alookup e (p, y) with
  | some fid => { fs with empirical_counts := cntIncr fs.empirical_counts fid }
  | none =>
      { fs with
        feature_dic := amodify (fun e0 => ainsert e0 (p, y) fs.num_features)
          fs.feature_dic s
        empirical_counts := cntIncr fs.empirical_counts fs.num_features
        num_features := fs.num_features + 1 }

/-- The unigram branch of _add for one feature string (feature.py lines
137-143), operating on the state left by the bigram branch. -/
def uniStep (fs1 : FeatureSet) (y : ℕ) (s : String) : FeatureSet :=
  match fsPair fs1 s (-1, y) with
  | some fid => { fs1 with empirical_counts := cntIncr fs1.empirical_counts fid }
  | none =>
      { fs1 with
        feature_dic := amodify (fun e0 => ainsert e0 (-1, y) fs1.num_features)
          fs1.feature_dic s
        empirical_counts := cntIncr fs1.empirical_counts fs1.num_features
        num_features := fs1.num_features + 1 }

theorem addString_eq_some (fs : FeatureSet) (p : ℤ) (y : ℕ) (s : String)
    (e : List (Transition × ℕ)) (he : alookup fs.feature_dic s = some e) :
    addString fs p y s = uniStep (bigramStep fs p y s e) y s := by
  unfold addString bigramStep uniStep
  rw [he]

theorem addString_eq_none (fs : FeatureSet) (p : ℤ) (y : ℕ) (s : String)
    (he : alookup fs.feature_dic s = none) :
    addString fs p y s =
      { fs with
        feature_dic := ainsert fs.feature_dic s
          (ainsert (ainsert [] (p, y) fs.num_features) (-1, y) (fs.num_features + 1))
        empirical_counts := cntIncr (cntIncr fs.empirical_counts fs.num_features)
          (fs.num_features + 1)
        num_features := fs.num_features + 2 } := by
  unfold addString
  rw [he]

theorem bigramStep_eq_some (fs : FeatureSet) (p : ℤ) (y : ℕ) (s : String)
    (e : List (Transition × ℕ)) (fid : ℕ) (hb : alookup e (p, y) = some fid) :
    bigramStep fs p y s e = { fs with empirical_counts := cntIncr fs.empirical_counts fid } := by
  unfold bigramStep
  rw [hb]

theorem bigramStep_eq_none (fs : FeatureSet) (p : ℤ) (y : ℕ) (s : String)
    (e : List (Transition × ℕ)) (hb : alookup e (p, y) = none) :
    bigramStep fs p y s e =
      { fs with
        feature_dic := amodify (fun e0 => ainsert e0 (p, y) fs.num_features)
          fs.feature_dic s
        empirical_counts := cntIncr fs.empirical_counts fs.num_features
        num_features := fs.num_features + 1 } := by
  unfold bigramStep
  rw [hb]

theorem uniStep_eq_some (fs1 : FeatureSet) (y : ℕ) (s : String) (fid : ℕ)
    (hu : fsPair fs1 s (-1, y) = some fid) :
    uniStep fs1 y s = { fs1 with empirical_counts := cntIncr fs1.empirical_counts fid } := by
  unfold uniStep
  rw [hu]

theorem uniStep_eq_none (fs1 : FeatureSet) (y : ℕ) (s : String)
    (hu : fsPair fs1 s (-1, y) = none) :
    uniStep fs1 y s =
      { fs1 with
        feature_dic := amodify (fun e0 => ainsert e0 (-1, y) fs1.num_features)
          fs1.feature_dic s
        empirical_counts := cntIncr fs1.empirical_counts fs1.num_features
        num_features := fs1.num_features + 1 } := by
  unfold uniStep
  rw [hu]

/-- Pair lookup directly on a feature dictionary. -/
def dlookup (d : FeatureDic) (s : String) (tr : Transition) : Option ℕ :=
  match alookup d s with
  | some e => alookup e tr
  | none => none

theorem fsPair_eq_dlookup (fs : FeatureSet) (s : String) (tr : Transition) :
    fsPair fs s tr = dlookup fs.feature_dic s tr := rfl

theorem fsPair_congr (fs fs2 : FeatureSet) (h : fs2.feature_dic = fs.feature_dic)
    (s : String) (tr : Transition) : fsPair fs2 s tr = fsPair fs s tr := by
  rw [fsPair_eq_dlookup, fsPair_eq_dlookup, h]

theorem dlookup_amodify_ainsert (d : FeatureDic) (s0 : String) (tr0 : Transition)
    (v : ℕ) (s' : String) (tr : Transition) :
    dlookup (amodify (fun e0 => ainsert e0 tr0 v) d s0) s' tr =
      if s' = s0 then
        (match alookup d s0 with
         | some e => alookup (ainsert e tr0 v) tr
         | none => none)
      else dlookup d s' tr := by
  by_cases h : s' = s0
  · subst h
    unfold dlookup
    rw [alookup_amodify, if_pos rfl]
    cases alookup d s' <;> simp
  · unfold dlookup
    rw [alookup_amodify, if_neg h, if_neg h]

theorem dlookup_ainsert_fresh (d : FeatureDic) (s0 : String)
    (entry : List (Transition × ℕ)) (s' : String) (tr : Transition) :
    dlookup (ainsert d s0 entry) s' tr =
      if s' = s0 then alookup entry tr else dlookup d s' tr := by
  unfold dlookup
  rw [alookup_ainsert]
  by_cases h : s' = s0 <;> simp [h]

theorem addString_label (fs : FeatureSet) (p : ℤ) (y : ℕ) (s : String) :
    (addString fs p y s).label_dic = fs.label_dic ∧
    (addString fs p y s).label_array = fs.label_array := by
  cases he : alookup fs.feature_dic s with
  | none => rw [addString_eq_none fs p y s he]; exact ⟨rfl, rfl⟩
  | some e =>
      rw [addString_eq_some fs p y s e he]
      cases hb : alookup e (p, y) with
      | some fid =>
          rw [bigramStep_eq_some fs p y s e fid hb]
          cases hu : fsPair { fs with empirical_counts := cntIncr fs.empirical_counts fid }
            s (-1, y) with
          | some fid2 => rw [uniStep_eq_some _ y s fid2 hu]; exact ⟨rfl, rfl⟩
          | none => rw [uniStep_eq_none _ y s hu]; exact ⟨rfl, rfl⟩
      | none =>
          rw [bigramStep_eq_none fs p y s e hb]
          cases hu : fsPair
            { fs with
              feature_dic := amodify (fun e0 => ainsert e0 (p, y) fs.num_features)
                fs.feature_dic s
              empirical_counts := cntIncr fs.empirical_counts fs.num_features
              num_features := fs.num_features + 1 } s (-1, y) with
          | some fid2 => rw [uniStep_eq_some _ y s fid2 hu]; exact ⟨rfl, rfl⟩
          | none => rw [uniStep_eq_none _ y s hu]; exact ⟨rfl, rfl⟩

theorem uniStep_mono (fs1 : FeatureSet) (y : ℕ) (s : String) (s' : String)
    (tr : Transition) (fid : ℕ) (h : fsPair fs1 s' tr = some fid) :
    fsPair (uniStep fs1 y s) s' tr = some fid := by
  cases hu : fsPair fs1 s (-1, y) with
  | some fid2 => rw [uniStep_eq_some fs1 y s fid2 hu]; exact h
  | none =>
      rw [uniStep_eq_none fs1 y s hu]
      rw [fsPair_eq_dlookup] at h ⊢
      show dlookup (amodify (fun e0 => ainsert e0 (-1, y) fs1.num_features)
        fs1.feature_dic s) s' tr = some fid
      rw [dlookup_amodify_ainsert]
      by_cases hs : s' = s
      · subst hs
        rw [if_pos rfl]
        rw [fsPair_eq_dlookup] at hu
        unfold dlookup at h hu
        cases he1 : alookup fs1.feature_dic s' with
        | none => rw [he1] at h; exact absurd h (by simp)
        | some e1 =>
            rw [he1] at h hu
            have h2 : alookup e1 tr = some fid := h
            have hu2 : alookup e1 (-1, y) = none := hu
            show alookup (ainsert e1 (-1, y) fs1.num_features) tr = some fid
            rw [alookup_ainsert, if_neg]
            · exact h2
            · intro hc
              rw [hc] at h2
              rw [h2] at hu2
              exact absurd hu2 (by simp)
      · rw [if_neg hs]; exact h

theorem bigramStep_mono (fs : FeatureSet) (p : ℤ) (y : ℕ) (s : String)
    (e : List (Transition × ℕ)) (he : alookup fs.feature_dic s = some e)
    (s' : String) (tr : Transition) (fid : ℕ) (h : fsPair fs s' tr = some fid) :
    fsPair (bigramStep fs p y s e) s' tr = some fid := by
  cases hb : alookup e (p, y) with
  | some fid1 => rw [bigramStep_eq_some fs p y s e fid1 hb]; exact h
  | none =>
      rw [bigramStep_eq_none fs p y s e hb]
      rw [fsPair_eq_dlookup] at h ⊢
      show dlookup (amodify (fun e0 => ainsert e0 (p, y) fs.num_features)
        fs.feature_dic s) s' tr = some fid
      rw [dlookup_amodify_ainsert]
      by_cases hs : s' = s
      · subst hs
        rw [if_pos rfl, he]
        unfold dlookup at h
        rw [he] at h
        have h2 : alookup e tr = some fid := h
        show alookup (ainsert e (p, y) fs.num_features) tr = some fid
        rw [alookup_ainsert, if_neg]
        · exact h2
        · intro hc
          rw [hc] at h2
          rw [h2] at hb
          exact absurd hb (by simp)
      · rw [if_neg hs]; exact h

theorem addString_mono (fs : FeatureSet) (p : ℤ) (y : ℕ) (s : String)
    (s' : String) (tr : Transition) (fid : ℕ) (h : fsPair fs s' tr = some fid) :
    fsPair (addString fs p y s) s' tr = some fid := by
  cases he : alookup fs.feature_dic s with
  | none =>
      rw [addString_eq_none fs p y s he]
      rw [fsPair_eq_dlookup] at h ⊢
      show dlookup (ainsert fs.feature_dic s _) s' tr = some fid
      rw [dlookup_ainsert_fresh]
      by_cases hs : s' = s
      · subst hs
        unfold dlookup at h
        rw [he] at h
        exact absurd h (by simp)
      · rw [if_neg hs]; exact h
  | some e =>
      rw [addString_eq_some fs p y s e he]
      exact uniStep_mono _ y s s' tr fid (bigramStep_mono fs p y s e he s' tr fid h)

theorem fsPair_entry (fs : FeatureSet) (s : String) (tr : Transition) (fid : ℕ)
    (h : fsPair fs s tr = some fid) :
    ∃ e, alookup fs.feature_dic s = some e ∧ alookup e tr = some fid := by
  rw [fsPair_eq_dlookup] at h
  unfold dlookup at h
  cases he : alookup fs.feature_dic s with
  | none => rw [he] at h; exact absurd h (by simp)
  | some e =>
      rw [he] at h
      exact ⟨e, rfl, h⟩

theorem uniStep_present (fs1 : FeatureSet) (y : ℕ) (s : String)
    (e1 : List (Transition × ℕ)) (he1 : alookup fs1.feature_dic s = some e1) :
    (fsPair (uniStep fs1 y s) s (-1, y)).isSome := by
  cases hu : fsPair fs1 s (-1, y) with
  | some fid =>
      rw [uniStep_eq_some fs1 y s fid hu]
      have : fsPair { fs1 with empirical_counts := cntIncr fs1.empirical_counts fid }
          s (-1, y) = fsPair fs1 s (-1, y) := rfl
      rw [this, hu]
      rfl
  | none =>
      rw [uniStep_eq_none fs1 y s hu]
      rw [fsPair_eq_dlookup]
      show (dlookup (amodify (fun e0 => ainsert e0 (-1, y) fs1.num_features)
        fs1.feature_dic s) s (-1, y)).isSome
      rw [dlookup_amodify_ainsert, if_pos rfl, he1]
      show (alookup (ainsert e1 (-1, y) fs1.num_features) (-1, y)).isSome
      rw [alookup_ainsert, if_pos rfl]
      rfl

theorem bigramStep_present (fs : FeatureSet) (p : ℤ) (y : ℕ) (s : String)
    (e : List (Transition × ℕ)) (he : alookup fs.feature_dic s = some e) :
    (fsPair (bigramStep fs p y s e) s (p, y)).isSome := by
  cases hb : alookup e (p, y) with
  | some fid =>
      rw [bigramStep_eq_some fs p y s e fid hb]
      have : fsPair { fs with empirical_counts := cntIncr fs.empirical_counts fid }
          s (p, y) = fsPair fs s (p, y) := rfl
      rw [this, fsPair_eq_dlookup]
      unfold dlookup
      rw [he]
      show (alookup e (p, y)).isSome
      rw [hb]
      rfl
  | none =>
      rw [bigramStep_eq_none fs p y s e hb]
      rw [fsPair_eq_dlookup]
      show (dlookup (amodify (fun e0 => ainsert e0 (p, y) fs.num_features)
        fs.feature_dic s) s (p, y)).isSome
      rw [dlookup_amodify_ainsert, if_pos rfl, he]
      show (alookup (ainsert e (p, y) fs.num_features) (p, y)).isSome
      rw [alookup_ainsert, if_pos rfl]
      rfl

theorem bigramStep_keeps_entry (fs : FeatureSet) (p : ℤ) (y : ℕ) (s : String)
    (e : List (Transition × ℕ)) (he : alookup fs.feature_dic s = some e) :
    ∃ e1, alookup (bigramStep fs p y s e).feature_dic s = some e1 := by
  cases hb : alookup e (p, y) with
  | some fid =>
      rw [bigramStep_eq_some fs p y s e fid hb]
      exact ⟨e, he⟩
  | none =>
      rw [bigramStep_eq_none fs p y s e hb]
      refine ⟨ainsert e (p, y) fs.num_features, ?_⟩
      show alookup (amodify (fun e0 => ainsert e0 (p, y) fs.num_features)
        fs.feature_dic s) s = some (ainsert e (p, y) fs.num_features)
      rw [alookup_amodify, if_pos rfl, he]
      rfl

theorem addString_present (fs : FeatureSet) (p : ℤ) (y : ℕ) (s : String)
    (hp : p ≠ -1) :
    (fsPair (addString fs p y s) s (p, y)).isSome ∧
    (fsPair (addString fs p y s) s (-1, y)).isSome := by
  cases he : alookup fs.feature_dic s with
  | none =>
      rw [addString_eq_none fs p y s he]
      have hgoal : ∀ tr : Transition,
          fsPair { fs with
            feature_dic := ainsert fs.feature_dic s
              (ainsert (ainsert [] (p, y) fs.num_features) (-1, y) (fs.num_features + 1))
            empirical_counts := cntIncr (cntIncr fs.empirical_counts fs.num_features)
              (fs.num_features + 1)
            num_features := fs.num_features + 2 } s tr =
          alookup (ainsert (ainsert [] (p, y) fs.num_features) (-1, y)
            (fs.num_features + 1)) tr := by
        intro tr
        rw [fsPair_eq_dlookup]
        show dlookup (ainsert fs.feature_dic s _) s tr = _
        rw [dlookup_ainsert_fresh, if_pos rfl]
      rw [hgoal, hgoal]
      constructor
      · rw [alookup_ainsert, if_neg (by
          intro hc
          rw [Prod.ext_iff] at hc
          exact hp hc.1)]
        rw [alookup_ainsert, if_pos rfl]
        rfl
      · rw [alookup_ainsert, if_pos rfl]
        rfl
  | some e =>
      rw [addString_eq_some fs p y s e he]
      have hbig := bigramStep_present fs p y s e he
      obtain ⟨fid1, hfid1⟩ := Option.isSome_iff_exists.1 hbig
      constructor
      · rw [uniStep_mono (bigramStep fs p y s e) y s s (p, y) fid1 hfid1]
        rfl
      · obtain ⟨e1, he1⟩ := bigramStep_keeps_entry fs p y s e he
        exact uniStep_present (bigramStep fs p y s e) y s e1 he1

theorem addString_noop (fs : FeatureSet) (p : ℤ) (y : ℕ) (s : String) (fid1 fid2 : ℕ)
    (h1 : fsPair fs s (p, y) = some fid1) (h2 : fsPair fs s (-1, y) = some fid2) :
    (addString fs p y s).feature_dic = fs.feature_dic ∧
    (addString fs p y s).num_features = fs.num_features := by
  obtain ⟨e, he, hb⟩ := fsPair_entry fs s (p, y) fid1 h1
  rw [addString_eq_some fs p y s e he, bigramStep_eq_some fs p y s e fid1 hb]
  have h2b : fsPair { fs with empirical_counts := cntIncr fs.empirical_counts fid1 }
      s (-1, y) = some fid2 := h2
  rw [uniStep_eq_some _ y s fid2 h2b]
  exact ⟨rfl, rfl⟩

/-- fs2 extends fs1: every registered label id and feature-id pair of fs1 is
still registered with the same id in fs2. -/
def FsExtends (fs2 fs1 : FeatureSet) : Prop :=
  (∀ lab i, alookup fs1.label_dic lab = some i → alookup fs2.label_dic lab = some i) ∧
  (∀ s tr fid, fsPair fs1 s tr = some fid → fsPair fs2 s tr = some fid)

theorem FsExtends.rfl (fs : FeatureSet) : FsExtends fs fs :=
  ⟨fun _ _ h => h, fun _ _ _ h => h⟩

theorem FsExtends.trans {fs3 fs2 fs1 : FeatureSet} (h32 : FsExtends fs3 fs2)
    (h21 : FsExtends fs2 fs1) : FsExtends fs3 fs1 :=
  ⟨fun lab i h => h32.1 lab i (h21.1 lab i h),
   fun s tr fid h => h32.2 s tr fid (h21.2 s tr fid h)⟩

theorem FsExtends.of_struct {fs2 fs1 : FeatureSet} (hl : fs2.label_dic = fs1.label_dic)
    (hd : fs2.feature_dic = fs1.feature_dic) : FsExtends fs2 fs1 :=
  ⟨fun lab i h => by rw [hl]; exact h,
   fun s tr fid h => by rw [fsPair_eq_dlookup, hd, ← fsPair_eq_dlookup]; exact h⟩

theorem addString_extends (fs : FeatureSet) (p : ℤ) (y : ℕ) (s : String) :
    FsExtends (addString fs p y s) fs :=
  ⟨fun lab i h => by rw [(addString_label fs p y s).1]; exact h,
   fun s' tr fid h => addString_mono fs p y s s' tr fid h⟩

theorem foldString_extends (p : ℤ) (y : ℕ) :
    ∀ (l : List String) (fs : FeatureSet),
      FsExtends (l.foldl (fun a s => addString a p y s) fs) fs := by
  intro l
  induction l with
  | nil => intro fs; exact FsExtends.rfl fs
  | cons s0 rest ih =>
      intro fs
      exact FsExtends.trans (ih (addString fs p y s0)) (addString_extends fs p y s0)

theorem foldString_label (p : ℤ) (y : ℕ) :
    ∀ (l : List String) (fs : FeatureSet),
      (l.foldl (fun a s => addString a p y s) fs).label_dic = fs.label_dic ∧
      (l.foldl (fun a s => addString a p y s) fs).label_array = fs.label_array := by
  intro l
  induction l with
  | nil => intro fs; exact ⟨rfl, rfl⟩
  | cons s0 rest ih =>
      intro fs
      obtain ⟨h1, h2⟩ := ih (addString fs p y s0)
      obtain ⟨h3, h4⟩ := addString_label fs p y s0
      exact ⟨by rw [List.foldl_cons, h1, h3], by rw [List.foldl_cons, h2, h4]⟩

theorem foldString_present (p : ℤ) (y : ℕ) (hp : p ≠ -1) :
    ∀ (l : List String) (fs : FeatureSet) (s : String), s ∈ l →
      (fsPair (l.foldl (fun a s => addString a p y s) fs) s (p, y)).isSome ∧
      (fsPair (l.foldl (fun a s => addString a p y s) fs) s (-1, y)).isSome := by
  intro l
  induction l with
  | nil => intro fs s hs; simp at hs
  | cons s0 rest ih =>
      intro fs s hs
      rcases List.mem_cons.1 hs with h | h
      · subst h
        obtain ⟨hb, hu⟩ := addString_present fs p y s hp
        obtain ⟨fidb, hfidb⟩ := Option.isSome_iff_exists.1 hb
        obtain ⟨fidu, hfidu⟩ := Option.isSome_iff_exists.1 hu
        rw [List.foldl_cons]
        constructor
        · rw [(foldString_extends p y rest (addString fs p y s)).2 s (p, y) fidb hfidb]
          rfl
        · rw [(foldString_extends p y rest (addString fs p y s)).2 s (-1, y) fidu hfidu]
          rfl
      · rw [List.foldl_cons]
        exact ih (addString fs p y s0) s h

theorem foldString_noop (p : ℤ) (y : ℕ) :
    ∀ (l : List String) (fs : FeatureSet),
      (∀ s ∈ l, (fsPair fs s (p, y)).isSome ∧ (fsPair fs s (-1, y)).isSome) →
      (l.foldl (fun a s => addString a p y s) fs).feature_dic = fs.feature_dic ∧
      (l.foldl (fun a s => addString a p y s) fs).num_features = fs.num_features := by
  intro l
  induction l with
  | nil => intro fs _; exact ⟨rfl, rfl⟩
  | cons s0 rest ih =>
      intro fs hall
      obtain ⟨hb, hu⟩ := hall s0 (by simp)
      obtain ⟨fidb, hfidb⟩ := Option.isSome_iff_exists.1 hb
      obtain ⟨fidu, hfidu⟩ := Option.isSome_iff_exists.1 hu
      obtain ⟨hdic, hnum⟩ := addString_noop fs p y s0 fidb fidu hfidb hfidu
      have hall2 : ∀ s ∈ rest, (fsPair (addString fs p y s0) s (p, y)).isSome ∧
          (fsPair (addString fs p y s0) s (-1, y)).isSome := by
        intro s hs
        rw [fsPair_congr fs (addString fs p y s0) hdic s (p, y),
          fsPair_congr fs (addString fs p y s0) hdic s (-1, y)]
        exact hall s (by simp [hs])
      obtain ⟨h1, h2⟩ := ih (addString fs p y s0) hall2
      rw [List.foldl_cons]
      exact ⟨by rw [h1, hdic], by rw [h2, hnum]⟩

theorem addFeatures_eq {Obs : Type} (ff : List Obs → ℕ → List String) (fs : FeatureSet)
    (p : ℤ) (y : ℕ) (x : List Obs) (t : ℕ) :
    addFeatures ff fs p y x t = (ff x t).foldl (fun a s => addString a p y s) fs := rfl

theorem getLabelId_hit (fs : FeatureSet) (lab : String) (i : ℕ)
    (h : alookup fs.label_dic lab = some i) : getLabelId fs lab = (i, fs) := by
  unfold getLabelId
  rw [h]

theorem getLabelId_miss (fs : FeatureSet) (lab : String)
    (h : alookup fs.label_dic lab = none) :
    getLabelId fs lab = (fs.label_dic.length,
      { fs with
        label_dic := fs.label_dic ++ [(lab, fs.label_dic.length)]
        label_array := fs.label_array ++ [lab] }) := by
  unfold getLabelId
  rw [h]

theorem getLabelId_sound (fs : FeatureSet) (lab : String) :
    alookup (getLabelId fs lab).2.label_dic lab = some (getLabelId fs lab).1 := by
  cases h : alookup fs.label_dic lab with
  | some i => rw [getLabelId_hit fs lab i h]; exact h
  | none =>
      rw [getLabelId_miss fs lab h]
      show alookup (fs.label_dic ++ [(lab, fs.label_dic.length)]) lab =
        some fs.label_dic.length
      have : ∀ (l : List (String × ℕ)) (k : String) (v : ℕ), alookup l k = none →
          alookup (l ++ [(k, v)]) k = some v := by
        intro l k v hl
        induction l with
        | nil => simp [alookup]
        | cons pq r ih =>
            obtain ⟨a, b⟩ := pq
            by_cases hk : k = a
            · simp [alookup, hk] at hl
            · simp only [alookup, if_neg hk] at hl
              rw [List.cons_append]
              simp only [alookup, if_neg hk]
              exact ih hl
      exact this fs.label_dic lab fs.label_dic.length h

theorem getLabelId_extends (fs : FeatureSet) (lab : String) :
    FsExtends (getLabelId fs lab).2 fs := by
  cases h : alookup fs.label_dic lab with
  | some i => rw [getLabelId_hit fs lab i h]; exact FsExtends.rfl fs
  | none =>
      rw [getLabelId_miss fs lab h]
      constructor
      · intro lab2 i2 h2
        exact alookup_append_some fs.label_dic [(lab, fs.label_dic.length)] lab2 i2 h2
      · intro s tr fid hf
        exact hf

theorem getLabelId_dic (fs : FeatureSet) (lab : String) :
    (getLabelId fs lab).2.feature_dic = fs.feature_dic ∧
    (getLabelId fs lab).2.num_features = fs.num_features ∧
    (getLabelId fs lab).2.empirical_counts = fs.empirical_counts := by
  cases h : alookup fs.label_dic lab with
  | some i => rw [getLabelId_hit fs lab i h]; exact ⟨rfl, rfl, rfl⟩
  | none => rw [getLabelId_miss fs lab h]; exact ⟨rfl, rfl, rfl⟩

theorem scanSeqAux_extends {Obs : Type} (ff : List Obs → ℕ → List String)
    (x : List Obs) (Y : List String) :
    ∀ (rem t : ℕ) (prev : ℤ) (fs : FeatureSet),
      FsExtends (scanSeqAux ff x Y rem t prev fs) fs := by
  intro rem
  induction rem with
  | zero => intro t prev fs; exact FsExtends.rfl fs
  | succ rem ih =>
      intro t prev fs
      show FsExtends (scanSeqAux ff x Y rem (t + 1) ((getLabelId fs (Y.getD t "")).1 : ℤ)
        (addFeatures ff (getLabelId fs (Y.getD t "")).2 prev
          (getLabelId fs (Y.getD t "")).1 x t)) fs
      refine FsExtends.trans (ih _ _ _)
        (FsExtends.trans ?_ (getLabelId_extends fs (Y.getD t "")))
      rw [addFeatures_eq]
      exact foldString_extends prev (getLabelId fs (Y.getD t "")).1 (ff x t)
        (getLabelId fs (Y.getD t "")).2

theorem scan_extends {Obs : Type} (ff : List Obs → ℕ → List String) :
    ∀ (data : List (List Obs × List String)) (fs : FeatureSet),
      FsExtends (scan ff fs data) fs := by
  intro data
  induction data with
  | nil => intro fs; exact FsExtends.rfl fs
  | cons d rest ih =>
      intro fs
      show FsExtends (scan ff (scanSeq ff fs d.1 d.2) rest) fs
      exact FsExtends.trans (ih (scanSeq ff fs d.1 d.2)) (scanSeqAux_extends ff d.1 d.2 _ 0 _ fs)

/-- The feature-id pairs and label ids that one pass of the scan t-loop over
(x, Y) requires, phrased against a given FeatureSet state. -/
def CoversFrom {Obs : Type} (ff : List Obs → ℕ → List String) (x : List Obs)
    (Y : List String) : ℕ → ℕ → ℤ → FeatureSet → Prop
  | 0, _, _, _ => True
  | rem + 1, t, prev, fs =>
      ∃ yid, alookup fs.label_dic (Y.getD t "") = some yid ∧
        (∀ s ∈ ff x t, (fsPair fs s (prev, yid)).isSome ∧
          (fsPair fs s (-1, yid)).isSome) ∧
        CoversFrom ff x Y rem (t + 1) (yid : ℤ) fs

theorem CoversFrom_mono {Obs : Type} (ff : List Obs → ℕ → List String) (x : List Obs)
    (Y : List String) :
    ∀ (rem t : ℕ) (prev : ℤ) (fs1 fs2 : FeatureSet), FsExtends fs2 fs1 →
      CoversFrom ff x Y rem t prev fs1 → CoversFrom ff x Y rem t prev fs2 := by
  intro rem
  induction rem with
  | zero => intro t prev fs1 fs2 _ _; trivial
  | succ rem ih =>
      intro t prev fs1 fs2 hext hcov
      obtain ⟨yid, hlab, hpairs, htail⟩ := hcov
      refine ⟨yid, hext.1 _ yid hlab, ?_, ih (t + 1) (yid : ℤ) fs1 fs2 hext htail⟩
      intro s hs
      obtain ⟨h1, h2⟩ := hpairs s hs
      obtain ⟨fid1, hfid1⟩ := Option.isSome_iff_exists.1 h1
      obtain ⟨fid2, hfid2⟩ := Option.isSome_iff_exists.1 h2
      constructor
      · rw [hext.2 s (prev, yid) fid1 hfid1]; rfl
      · rw [hext.2 s (-1, yid) fid2 hfid2]; rfl

theorem scanSeqAux_covers {Obs : Type} (ff : List Obs → ℕ → List String)
    (x : List Obs) (Y : List String) :
    ∀ (rem t : ℕ) (prev : ℤ) (fs : FeatureSet), prev ≠ -1 →
      CoversFrom ff x Y rem t prev (scanSeqAux ff x Y rem t prev fs) := by
  intro rem
  induction rem with
  | zero => intro t prev fs _; trivial
  | succ rem ih =>
      intro t prev fs hprev
      set yfs := getLabelId fs (Y.getD t "") with hyfs
      show CoversFrom ff x Y (rem + 1) t prev
        (scanSeqAux ff x Y rem (t + 1) (yfs.1 : ℤ) (addFeatures ff yfs.2 prev yfs.1 x t))
      set fs2 := addFeatures ff yfs.2 prev yfs.1 x t with hfs2
      have hext : FsExtends (scanSeqAux ff x Y rem (t + 1) (yfs.1 : ℤ) fs2) fs2 :=
        scanSeqAux_extends ff x Y rem (t + 1) (yfs.1 : ℤ) fs2
      refine ⟨yfs.1, ?_, ?_, ?_⟩
      · have hl0 : alookup yfs.2.label_dic (Y.getD t "") = some yfs.1 :=
          getLabelId_sound fs (Y.getD t "")
        have hl1 : alookup fs2.label_dic (Y.getD t "") = some yfs.1 := by
          rw [hfs2, addFeatures_eq,
            (foldString_label prev yfs.1 (ff x t) yfs.2).1]
          exact hl0
        exact hext.1 _ yfs.1 hl1
      · intro s hs
        have hpres := foldString_present prev yfs.1 hprev (ff x t) yfs.2 s hs
        rw [← addFeatures_eq] at hpres
        obtain ⟨h1, h2⟩ := hpres
        obtain ⟨fid1, hfid1⟩ := Option.isSome_iff_exists.1 h1
        obtain ⟨fid2, hfid2⟩ := Option.isSome_iff_exists.1 h2
        constructor
        · rw [hext.2 s (prev, yfs.1) fid1 hfid1]; rfl
        · rw [hext.2 s (-1, yfs.1) fid2 hfid2]; rfl
      · exact ih (t + 1) (yfs.1 : ℤ) fs2 (by
          intro hc
          have : (0 : ℤ) ≤ (yfs.1 : ℤ) := Int.natCast_nonneg _
          omega)

theorem scanSeqAux_noop {Obs : Type} (ff : List Obs → ℕ → List String)
    (x : List Obs) (Y : List String) :
    ∀ (rem t : ℕ) (prev : ℤ) (fs : FeatureSet), CoversFrom ff x Y rem t prev fs →
      (scanSeqAux ff x Y rem t prev fs).feature_dic = fs.feature_dic ∧
      (scanSeqAux ff x Y rem t prev fs).num_features = fs.num_features ∧
      (scanSeqAux ff x Y rem t prev fs).label_dic = fs.label_dic ∧
      (scanSeqAux ff x Y rem t prev fs).label_array = fs.label_array := by
  intro rem
  induction rem with
  | zero => intro t prev fs _; exact ⟨rfl, rfl, rfl, rfl⟩
  | succ rem ih =>
      intro t prev fs hcov
      obtain ⟨yid, hlab, hpairs, htail⟩ := hcov
      have hyfs : getLabelId fs (Y.getD t "") = (yid, fs) :=
        getLabelId_hit fs (Y.getD t "") yid hlab
      have hstep : scanSeqAux ff x Y (rem + 1) t prev fs =
          scanSeqAux ff x Y rem (t + 1)
            (((getLabelId fs (Y.getD t "")).1 : ℕ) : ℤ)
            (addFeatures ff (getLabelId fs (Y.getD t "")).2 prev
              (getLabelId fs (Y.getD t "")).1 x t) := rfl
      rw [hstep, hyfs]
      set fs2 := addFeatures ff fs prev yid x t with hfs2
      have hnoop : fs2.feature_dic = fs.feature_dic ∧ fs2.num_features = fs.num_features := by
        rw [hfs2, addFeatures_eq]
        refine foldString_noop prev yid (ff x t) fs ?_
        intro s hs
        exact hpairs s hs
      have hlabeq : fs2.label_dic = fs.label_dic ∧ fs2.label_array = fs.label_array := by
        rw [hfs2, addFeatures_eq]
        exact foldString_label prev yid (ff x t) fs
      have hcov2 : CoversFrom ff x Y rem (t + 1) (yid : ℤ) fs2 :=
        CoversFrom_mono ff x Y rem (t + 1) (yid : ℤ) fs fs2
          (FsExtends.of_struct hlabeq.1 hnoop.1) htail
      obtain ⟨i1, i2, i3, i4⟩ := ih (t + 1) (yid : ℤ) fs2 hcov2
      exact ⟨by rw [i1, hnoop.1], by rw [i2, hnoop.2], by rw [i3, hlabeq.1],
        by rw [i4, hlabeq.2]⟩

/-- The pairs and labels needed to rescan one (x, Y) pair. -/
def CoversSeq {Obs : Type} (ff : List Obs → ℕ → List String) (fs : FeatureSet)
    (xY : List Obs × List String) : Prop :=
  CoversFrom ff xY.1 xY.2 xY.1.length 0 (STARTING_LABEL_INDEX : ℤ) fs

theorem scan_covers_all {Obs : Type} (ff : List Obs → ℕ → List String) :
    ∀ (data : List (List Obs × List String)) (fs0 : FeatureSet),
      ∀ xY ∈ data, CoversSeq ff (scan ff fs0 data) xY := by
  intro data
  induction data with
  | nil => intro fs0 xY hxY; simp at hxY
  | cons d rest ih =>
      intro fs0 xY hxY
      rcases List.mem_cons.1 hxY with h | h
      · subst h
        show CoversSeq ff (scan ff (scanSeq ff fs0 xY.1 xY.2) rest) xY
        have hc : CoversSeq ff (scanSeq ff fs0 xY.1 xY.2) xY :=
          scanSeqAux_covers ff xY.1 xY.2 xY.1.length 0 (STARTING_LABEL_INDEX : ℤ) fs0
            (by simp [STARTING_LABEL_INDEX])
        exact CoversFrom_mono ff xY.1 xY.2 xY.1.length 0 _ _ _
          (scan_extends ff rest (scanSeq ff fs0 xY.1 xY.2)) hc
      · exact ih (scanSeq ff fs0 d.1 d.2) xY h

theorem scan_noop_of_covers {Obs : Type} (ff : List Obs → ℕ → List String) :
    ∀ (data : List (List Obs × List String)) (fs : FeatureSet),
      (∀ xY ∈ data, CoversSeq ff fs xY) →
      (scan ff fs data).feature_dic = fs.feature_dic ∧
      (scan ff fs data).num_features = fs.num_features ∧
      (scan ff fs data).label_dic = fs.label_dic := by
  intro data
  induction data with
  | nil => intro fs _; exact ⟨rfl, rfl, rfl⟩
  | cons d rest ih =>
      intro fs hcov
      obtain ⟨n1, n2, n3, n4⟩ := scanSeqAux_noop ff d.1 d.2 d.1.length 0
        (STARTING_LABEL_INDEX : ℤ) fs (hcov d (by simp))
      have hcov2 : ∀ xY ∈ rest, CoversSeq ff (scanSeq ff fs d.1 d.2) xY := by
        intro xY hxY
        exact CoversFrom_mono ff xY.1 xY.2 xY.1.length 0 _ fs _
          (FsExtends.of_struct n3 n1) (hcov xY (by simp [hxY]))
      obtain ⟨i1, i2, i3⟩ := ih (scanSeq ff fs d.1 d.2) hcov2
      exact ⟨by rw [show scan ff fs (d :: rest) = scan ff (scanSeq ff fs d.1 d.2) rest
          from rfl, i1]; exact n1,
        by rw [show scan ff fs (d :: rest) = scan ff (scanSeq ff fs d.1 d.2) rest
          from rfl, i2]; exact n2,
        by rw [show scan ff fs (d :: rest) = scan ff (scanSeq ff fs d.1 d.2) rest
          from rfl, i3]; exact n3⟩

/-! ## Empirical-count accounting for scan -/

theorem cntIncr_cons_ne (a b : ℕ) (r : List (ℕ × ℕ)) (k : ℕ) (h : k ≠ a) :
    cntIncr ((a, b) :: r) k = (a, b) :: cntIncr r k := by
  have hl : alookup ((a, b) :: r) k = alookup r k := by simp [alookup, h]
  cases hr : alookup r k with
  | none =>
      unfold cntIncr
      rw [hl, hr]
      simp [ainsert, h]
  | some v =>
      unfold cntIncr
      rw [hl, hr]
      simp [ainsert, h]

/-- Total of all Counter values: one cntIncr adds exactly 1. -/
def cntSum (c : List (ℕ × ℕ)) : ℕ :=
  (c.map Prod.snd).sum

theorem cntSum_cntIncr (c : List (ℕ × ℕ)) (k : ℕ) :
    cntSum (cntIncr c k) = cntSum c + 1 := by
  induction c with
  | nil => rfl
  | cons p r ih =>
      obtain ⟨a, b⟩ := p
      by_cases hk : k = a
      · subst hk
        have hstep : cntIncr ((k, b) :: r) k = (k, b + 1) :: r := by
          unfold cntIncr
          simp [alookup, ainsert]
        rw [hstep]
        simp [cntSum]
        omega
      · rw [cntIncr_cons_ne a b r k hk]
        simp only [cntSum, List.map_cons, List.sum_cons] at ih ⊢
        omega

theorem cntIncr_lookup (c : List (ℕ × ℕ)) (k k' : ℕ) :
    alookup (cntIncr c k) k' =
      if k' = k then some ((alookup c k).getD 0 + 1) else alookup c k' := by
  unfold cntIncr
  cases h : alookup c k with
  | none => rw [alookup_ainsert]; simp [h]
  | some v => rw [alookup_ainsert]; simp [h]

/-- Pointwise order on Counters (missing key reads as 0). -/
def cntLe (c1 c2 : List (ℕ × ℕ)) : Prop :=
  ∀ k, (alookup c1 k).getD 0 ≤ (alookup c2 k).getD 0

theorem cntLe_refl (c : List (ℕ × ℕ)) : cntLe c c :=
  fun _ => le_refl _

theorem cntLe_trans {c1 c2 c3 : List (ℕ × ℕ)} (h1 : cntLe c1 c2) (h2 : cntLe c2 c3) :
    cntLe c1 c3 :=
  fun k => le_trans (h1 k) (h2 k)

theorem cntLe_incr (c : List (ℕ × ℕ)) (k : ℕ) : cntLe c (cntIncr c k) := by
  intro k'
  rw [cntIncr_lookup]
  by_cases h : k' = k
  · subst h
    rw [if_pos rfl]
    simp
  · rw [if_neg h]

theorem addString_cnt (fs : FeatureSet) (p : ℤ) (y : ℕ) (s : String) :
    cntSum (addString fs p y s).empirical_counts = cntSum fs.empirical_counts + 2 ∧
    cntLe fs.empirical_counts (addString fs p y s).empirical_counts := by
  cases he : alookup fs.feature_dic s with
  | none =>
      rw [addString_eq_none fs p y s he]
      exact ⟨by rw [show ({ fs with
          feature_dic := ainsert fs.feature_dic s
            (ainsert (ainsert [] (p, y) fs.num_features) (-1, y) (fs.num_features + 1))
          empirical_counts := cntIncr (cntIncr fs.empirical_counts fs.num_features)
            (fs.num_features + 1)
          num_features := fs.num_features + 2 } : FeatureSet).empirical_counts =
            cntIncr (cntIncr fs.empirical_counts fs.num_features) (fs.num_features + 1)
          from rfl, cntSum_cntIncr, cntSum_cntIncr],
        cntLe_trans (cntLe_incr _ _) (cntLe_incr _ _)⟩
  | some e =>
      rw [addString_eq_some fs p y s e he]
      have hb : ∃ k, (bigramStep fs p y s e).empirical_counts =
          cntIncr fs.empirical_counts k := by
        cases hb : alookup e (p, y) with
        | some fid => rw [bigramStep_eq_some fs p y s e fid hb]; exact ⟨fid, rfl⟩
        | none => rw [bigramStep_eq_none fs p y s e hb]; exact ⟨fs.num_features, rfl⟩
      have hu : ∃ k2, (uniStep (bigramStep fs p y s e) y s).empirical_counts =
          cntIncr (bigramStep fs p y s e).empirical_counts k2 := by
        cases hu : fsPair (bigramStep fs p y s e) s (-1, y) with
        | some fid => rw [uniStep_eq_some _ y s fid hu]; exact ⟨fid, rfl⟩
        | none =>
            rw [uniStep_eq_none _ y s hu]
            exact ⟨(bigramStep fs p y s e).num_features, rfl⟩
      obtain ⟨k1, hk1⟩ := hb
      obtain ⟨k2, hk2⟩ := hu
      rw [hk2, hk1]
      exact ⟨by rw [cntSum_cntIncr, cntSum_cntIncr],
        cntLe_trans (cntLe_incr _ _) (cntLe_incr _ _)⟩

theorem foldString_cnt (p : ℤ) (y : ℕ) :
    ∀ (l : List String) (fs : FeatureSet),
      cntSum ((l.foldl (fun a s => addString a p y s) fs).empirical_counts) =
        cntSum fs.empirical_counts + 2 * l.length ∧
      cntLe fs.empirical_counts
        (l.foldl (fun a s => addString a p y s) fs).empirical_counts := by
  intro l
  induction l with
  | nil =>
      intro fs
      exact ⟨by simp, cntLe_refl _⟩
  | cons s rest ih =>
      intro fs
      have h1 := addString_cnt fs p y s
      have h2 := ih (addString fs p y s)
      rw [List.foldl_cons]
      constructor
      · rw [h2.1, h1.1]
        simp only [List.length_cons]
        omega
      · exact cntLe_trans h1.2 h2.2

/-- Total number of feature-string occurrences in the remaining rem steps
of the scan t-loop starting at time t. -/
def ffCost {Obs : Type} (ff : List Obs → ℕ → List String) (x : List Obs) :
    ℕ → ℕ → ℕ
  | 0, _ => 0
  | rem + 1, t => (ff x t).length + ffCost ff x rem (t + 1)

theorem scanSeqAux_cnt {Obs : Type} (ff : List Obs → ℕ → List String)
    (x : List Obs) (Y : List String) :
    ∀ (rem t : ℕ) (prev : ℤ) (fs : FeatureSet),
      cntSum (scanSeqAux ff x Y rem t prev fs).empirical_counts =
        cntSum fs.empirical_counts + 2 * ffCost ff x rem t ∧
      cntLe fs.empirical_counts (scanSeqAux ff x Y rem t prev fs).empirical_counts := by
  intro rem
  induction rem with
  | zero =>
      intro t prev fs
      refine ⟨?_, cntLe_refl _⟩
      show cntSum fs.empirical_counts = cntSum fs.empirical_counts + 2 * 0
      omega
  | succ rem ih =>
      intro t prev fs
      have hstep : scanSeqAux ff x Y (rem + 1) t prev fs =
          scanSeqAux ff x Y rem (t + 1)
            (((getLabelId fs (Y.getD t "")).1 : ℕ) : ℤ)
            (addFeatures ff (getLabelId fs (Y.getD t "")).2 prev
              (getLabelId fs (Y.getD t "")).1 x t) := rfl
      have hg := getLabelId_dic fs (Y.getD t "")
      have h1 := foldString_cnt prev (getLabelId fs (Y.getD t "")).1 (ff x t)
        (getLabelId fs (Y.getD t "")).2
      rw [← addFeatures_eq] at h1
      rw [hg.2.2] at h1
      have h2 := ih (t + 1) (((getLabelId fs (Y.getD t "")).1 : ℕ) : ℤ)
        (addFeatures ff (getLabelId fs (Y.getD t "")).2 prev
          (getLabelId fs (Y.getD t "")).1 x t)
      rw [hstep]
      constructor
      · rw [h2.1, h1.1]
        show _ = cntSum fs.empirical_counts +
          2 * ((ff x t).length + ffCost ff x rem (t + 1))
        omega
      · exact cntLe_trans h1.2 h2.2

/-- Total number of feature-string occurrences over a whole corpus. -/
def dataCost {Obs : Type} (ff : List Obs → ℕ → List String)
    (data : List (List Obs × List String)) : ℕ :=
  (data.map (fun xY => ffCost ff xY.1 xY.1.length 0)).sum

theorem scan_cnt {Obs : Type} (ff : List Obs → ℕ → List String) :
    ∀ (data : List (List Obs × List String)) (fs : FeatureSet),
      cntSum (scan ff fs data).empirical_counts =
        cntSum fs.empirical_counts + 2 * dataCost ff data ∧
      cntLe fs.empirical_counts (scan ff fs data).empirical_counts := by
  intro data
  induction data with
  | nil =>
      intro fs
      exact ⟨by simp [scan, dataCost], cntLe_refl _⟩
  | cons d rest ih =>
      intro fs
      have hstep : scan ff fs (d :: rest) = scan ff (scanSeq ff fs d.1 d.2) rest := rfl
      have h1 := scanSeqAux_cnt ff d.1 d.2 d.1.length 0 (STARTING_LABEL_INDEX : ℤ) fs
      have h2 := ih (scanSeq ff fs d.1 d.2)
      rw [hstep]
      constructor
      · rw [h2.1]
        have hseq : cntSum (scanSeq ff fs d.1 d.2).empirical_counts =
            cntSum fs.empirical_counts + 2 * ffCost ff d.1 d.1.length 0 := h1.1
        rw [hseq]
        simp only [dataCost, List.map_cons, List.sum_cons]
        omega
      · exact cntLe_trans h1.2 h2.2

/-! ## Nodup invariant: one feature id per (string, transition) pair -/

theorem keys_amodify {α β : Type} [DecidableEq α] (f : β → β) (l : List (α × β)) (k : α) :
    (amodify f l k).map Prod.fst = l.map Prod.fst := by
  induction l with
  | nil => rfl
  | cons p r ih =>
      obtain ⟨a, b⟩ := p
      by_cases h : k = a <;> simp [amodify, h, ih]

/-- Well-formedness of the feature dictionary: the outer dict has no
duplicate feature-string keys and every inner dict has no duplicate
transition keys, so each encountered pair carries exactly one id. -/
def DicND (d : FeatureDic) : Prop :=
  (d.map Prod.fst).Nodup ∧
  ∀ s e, alookup d s = some e → (e.map Prod.fst).Nodup

theorem dicND_amodify_ainsert (d : FeatureDic) (s : String) (tr : Transition) (n : ℕ)
    (h : DicND d) : DicND (amodify (fun e0 => ainsert e0 tr n) d s) := by
  constructor
  · rw [keys_amodify]
    exact h.1
  · intro s2 e2 he2
    rw [alookup_amodify] at he2
    by_cases hs : s2 = s
    · rw [if_pos hs] at he2
      cases hd : alookup d s with
      | none => rw [hd] at he2; exact absurd he2 (by simp)
      | some e0 =>
          rw [hd] at he2
          simp only [Option.map_some'] at he2
          injection he2 with h2
          rw [← h2]
          exact nodup_keys_ainsert e0 tr n (h.2 s e0 hd)
    · rw [if_neg hs] at he2
      exact h.2 s2 e2 he2

theorem dicND_ainsert_two (d : FeatureDic) (s : String) (p : ℤ) (y : ℕ) (n : ℕ)
    (h : DicND d) :
    DicND (ainsert d s (ainsert (ainsert [] (p, y) n) (-1, y) (n + 1))) := by
  constructor
  · exact nodup_keys_ainsert d s _ h.1
  · intro s2 e2 he2
    rw [alookup_ainsert] at he2
    by_cases hs : s2 = s
    · rw [if_pos hs] at he2
      injection he2 with h2
      rw [← h2]
      exact nodup_keys_ainsert _ (-1, y) (n + 1)
        (nodup_keys_ainsert [] (p, y) n (by simp))
    · rw [if_neg hs] at he2
      exact h.2 s2 e2 he2

theorem bigramStep_nd (fs : FeatureSet) (p : ℤ) (y : ℕ) (s : String)
    (e : List (Transition × ℕ)) (h : DicND fs.feature_dic) :
    DicND (bigramStep fs p y s e).feature_dic := by
  cases hb : alookup e (p, y) with
  | some fid => rw [bigramStep_eq_some fs p y s e fid hb]; exact h
  | none =>
      rw [bigramStep_eq_none fs p y s e hb]
      exact dicND_amodify_ainsert fs.feature_dic s (p, y) fs.num_features h

theorem uniStep_nd (fs1 : FeatureSet) (y : ℕ) (s : String)
    (h : DicND fs1.feature_dic) : DicND (uniStep fs1 y s).feature_dic := by
  cases hu : fsPair fs1 s (-1, y) with
  | some fid => rw [uniStep_eq_some fs1 y s fid hu]; exact h
  | none =>
      rw [uniStep_eq_none fs1 y s hu]
      exact dicND_amodify_ainsert fs1.feature_dic s (-1, y) fs1.num_features h

theorem addString_nd (fs : FeatureSet) (p : ℤ) (y : ℕ) (s : String)
    (h : DicND fs.feature_dic) : DicND (addString fs p y s).feature_dic := by
  cases he : alookup fs.feature_dic s with
  | none =>
      rw [addString_eq_none fs p y s he]
      exact dicND_ainsert_two fs.feature_dic s p y fs.num_features h
  | some e =>
      rw [addString_eq_some fs p y s e he]
      exact uniStep_nd (bigramStep fs p y s e) y s (bigramStep_nd fs p y s e h)

theorem foldString_nd (p : ℤ) (y : ℕ) :
    ∀ (l : List String) (fs : FeatureSet), DicND fs.feature_dic →
      DicND ((l.foldl (fun a s => addString a p y s) fs).feature_dic) := by
  intro l
  induction l with
  | nil => intro fs h; exact h
  | cons s rest ih =>
      intro fs h
      rw [List.foldl_cons]
      exact ih (addString fs p y s) (addString_nd fs p y s h)

theorem scanSeqAux_nd {Obs : Type} (ff : List Obs → ℕ → List String)
    (x : List Obs) (Y : List String) :
    ∀ (rem t : ℕ) (prev : ℤ) (fs : FeatureSet), DicND fs.feature_dic →
      DicND (scanSeqAux ff x Y rem t prev fs).feature_dic := by
  intro rem
  induction rem with
  | zero => intro t prev fs h; exact h
  | succ rem ih =>
      intro t prev fs h
      have hstep : scanSeqAux ff x Y (rem + 1) t prev fs =
          scanSeqAux ff x Y rem (t + 1)
            (((getLabelId fs (Y.getD t "")).1 : ℕ) : ℤ)
            (addFeatures ff (getLabelId fs (Y.getD t "")).2 prev
              (getLabelId fs (Y.getD t "")).1 x t) := rfl
      rw [hstep]
      refine ih (t + 1) _ _ ?_
      rw [addFeatures_eq]
      refine foldString_nd prev (getLabelId fs (Y.getD t "")).1 (ff x t)
        (getLabelId fs (Y.getD t "")).2 ?_
      rw [(getLabelId_dic fs (Y.getD t "")).1]
      exact h

theorem scan_nd {Obs : Type} (ff : List Obs → ℕ → List String) :
    ∀ (data : List (List Obs × List String)) (fs : FeatureSet), DicND fs.feature_dic →
      DicND (scan ff fs data).feature_dic := by
  intro data
  induction data with
  | nil => intro fs h; exact h
  | cons d rest ih =>
      intro fs h
      exact ih (scanSeq ff fs d.1 d.2)
        (scanSeqAux_nd ff d.1 d.2 d.1.length 0 (STARTING_LABEL_INDEX : ℤ) fs h)

theorem initFeatureSet_nd : DicND initFeatureSet.feature_dic := by
  constructor
  · simp [initFeatureSet]
  · intro s e he
    exact absurd he (by simp [initFeatureSet, alookup])

/-! ## Every assigned id has a positive empirical count -/

/-- Invariant of _add: every dense feature id below num_features already
has a recorded empirical count of at least 1. -/
def CntInv (fs : FeatureSet) : Prop :=
  ∀ fid, fid < fs.num_features →
    ∃ v, alookup fs.empirical_counts fid = some v ∧ 1 ≤ v

theorem cnt_lookup_incr_old (c : List (ℕ × ℕ)) (k fid : ℕ)
    (h : ∃ v, alookup c fid = some v ∧ 1 ≤ v) :
    ∃ v, alookup (cntIncr c k) fid = some v ∧ 1 ≤ v := by
  rw [cntIncr_lookup]
  by_cases hf : fid = k
  · rw [if_pos hf]
    exact ⟨_, rfl, by omega⟩
  · rw [if_neg hf]
    exact h

theorem cnt_lookup_incr_self (c : List (ℕ × ℕ)) (k : ℕ) :
    ∃ v, alookup (cntIncr c k) k = some v ∧ 1 ≤ v := by
  rw [cntIncr_lookup, if_pos rfl]
  exact ⟨_, rfl, by omega⟩

theorem bigramStep_cntInv (fs : FeatureSet) (p : ℤ) (y : ℕ) (s : String)
    (e : List (Transition × ℕ)) (h : CntInv fs) : CntInv (bigramStep fs p y s e) := by
  cases hb : alookup e (p, y) with
  | some fid =>
      rw [bigramStep_eq_some fs p y s e fid hb]
      intro f hf
      have hf2 : f < fs.num_features := hf
      show ∃ v, alookup (cntIncr fs.empirical_counts fid) f = some v ∧ 1 ≤ v
      exact cnt_lookup_incr_old fs.empirical_counts fid f (h f hf2)
  | none =>
      rw [bigramStep_eq_none fs p y s e hb]
      intro f hf
      have hf2 : f < fs.num_features + 1 := hf
      show ∃ v, alookup (cntIncr fs.empirical_counts fs.num_features) f = some v ∧ 1 ≤ v
      by_cases hfe : f = fs.num_features
      · rw [hfe]
        exact cnt_lookup_incr_self fs.empirical_counts fs.num_features
      · exact cnt_lookup_incr_old fs.empirical_counts fs.num_features f
          (h f (by omega))

theorem uniStep_cntInv (fs1 : FeatureSet) (y : ℕ) (s : String)
    (h : CntInv fs1) : CntInv (uniStep fs1 y s) := by
  cases hu : fsPair fs1 s (-1, y) with
  | some fid =>
      rw [uniStep_eq_some fs1 y s fid hu]
      intro f hf
      have hf2 : f < fs1.num_features := hf
      show ∃ v, alookup (cntIncr fs1.empirical_counts fid) f = some v ∧ 1 ≤ v
      exact cnt_lookup_incr_old fs1.empirical_counts fid f (h f hf2)
  | none =>
      rw [uniStep_eq_none fs1 y s hu]
      intro f hf
      have hf2 : f < fs1.num_features + 1 := hf
      show ∃ v, alookup (cntIncr fs1.empirical_counts fs1.num_features) f = some v ∧ 1 ≤ v
      by_cases hfe : f = fs1.num_features
      · rw [hfe]
        exact cnt_lookup_incr_self fs1.empirical_counts fs1.num_features
      · exact cnt_lookup_incr_old fs1.empirical_counts fs1.num_features f
          (h f (by omega))

theorem addString_cntInv (fs : FeatureSet) (p : ℤ) (y : ℕ) (s : String)
    (h : CntInv fs) : CntInv (addString fs p y s) := by
  cases he : alookup fs.feature_dic s with
  | some e =>
      rw [addString_eq_some fs p y s e he]
      exact uniStep_cntInv (bigramStep fs p y s e) y s (bigramStep_cntInv fs p y s e h)
  | none =>
      rw [addString_eq_none fs p y s he]
      intro f hf
      have hf2 : f < fs.num_features + 2 := hf
      show ∃ v, alookup (cntIncr (cntIncr fs.empirical_counts fs.num_features)
        (fs.num_features + 1)) f = some v ∧ 1 ≤ v
      by_cases hf1 : f = fs.num_features + 1
      · rw [hf1]
        exact cnt_lookup_incr_self _ (fs.num_features + 1)
      · refine cnt_lookup_incr_old _ (fs.num_features + 1) f ?_
        by_cases hf0 : f = fs.num_features
        · rw [hf0]
          exact cnt_lookup_incr_self fs.empirical_counts fs.num_features
        · exact cnt_lookup_incr_old fs.empirical_counts fs.num_features f
            (h f (by omega))

theorem foldString_cntInv (p : ℤ) (y : ℕ) :
    ∀ (l : List String) (fs : FeatureSet), CntInv fs →
      CntInv (l.foldl (fun a s => addString a p y s) fs) := by
  intro l
  induction l with
  | nil => intro fs h; exact h
  | cons s rest ih =>
      intro fs h
      rw [List.foldl_cons]
      exact ih (addString fs p y s) (addString_cntInv fs p y s h)

theorem getLabelId_cntInv (fs : FeatureSet) (lab : String) (h : CntInv fs) :
    CntInv (getLabelId fs lab).2 := by
  intro f hf
  have hg := getLabelId_dic fs lab
  rw [hg.2.1] at hf
  rw [hg.2.2]
  exact h f hf

theorem scanSeqAux_cntInv {Obs : Type} (ff : List Obs → ℕ → List String)
    (x : List Obs) (Y : List String) :
    ∀ (rem t : ℕ) (prev : ℤ) (fs : FeatureSet), CntInv fs →
      CntInv (scanSeqAux ff x Y rem t prev fs) := by
  intro rem
  induction rem with
  | zero => intro t prev fs h; exact h
  | succ rem ih =>
      intro t prev fs h
      have hstep : scanSeqAux ff x Y (rem + 1) t prev fs =
          scanSeqAux ff x Y rem (t + 1)
            (((getLabelId fs (Y.getD t "")).1 : ℕ) : ℤ)
            (addFeatures ff (getLabelId fs (Y.getD t "")).2 prev
              (getLabelId fs (Y.getD t "")).1 x t) := rfl
      rw [hstep]
      refine ih (t + 1) _ _ ?_
      rw [addFeatures_eq]
      exact foldString_cntInv prev (getLabelId fs (Y.getD t "")).1 (ff x t)
        (getLabelId fs (Y.getD t "")).2 (getLabelId_cntInv fs (Y.getD t "") h)

theorem scan_cntInv {Obs : Type} (ff : List Obs → ℕ → List String) :
    ∀ (data : List (List Obs × List String)) (fs : FeatureSet), CntInv fs →
      CntInv (scan ff fs data) := by
  intro data
  induction data with
  | nil => intro fs h; exact h
  | cons d rest ih =>
      intro fs h
      exact ih (scanSeq ff fs d.1 d.2)
        (scanSeqAux_cntInv ff d.1 d.2 d.1.length 0 (STARTING_LABEL_INDEX : ℤ) fs h)

/-- C9: for every corpus, a first FeatureSet.scan from the fresh feature set
registers every (feature-string, transition) pair it encounters under exactly
one feature id (every encountered pair is present afterwards, and the feature
dictionary holds no duplicate string or transition keys), and scanning the
identical corpus a second time is idempotent on the id space: it leaves
feature_dic, num_features and label_dic unchanged, while the empirical counts
only grow, by exactly two increments (one bigram, one unigram) per
feature-string occurrence in the corpus. -/
theorem scan_idempotent_id_space {Obs : Type} (ff : List Obs → ℕ → List String)
    (data : List (List Obs × List String)) :
    (∀ xY ∈ data, CoversSeq ff (scan ff initFeatureSet data) xY) ∧
    DicND (scan ff initFeatureSet data).feature_dic ∧
    (scan ff (scan ff initFeatureSet data) data).feature_dic
      = (scan ff initFeatureSet data).feature_dic ∧
    (scan ff (scan ff initFeatureSet data) data).num_features
      = (scan ff initFeatureSet data).num_features ∧
    (scan ff (scan ff initFeatureSet data) data).label_dic
      = (scan ff initFeatureSet data).label_dic ∧
    cntLe (scan ff initFeatureSet data).empirical_counts
      (scan ff (scan ff initFeatureSet data) data).empirical_counts ∧
    cntSum (scan ff (scan ff initFeatureSet data) data).empirical_counts
      = cntSum (scan ff initFeatureSet data).empirical_counts + 2 * dataCost ff data := by
  have hcov := scan_covers_all ff data initFeatureSet
  have hnoop := scan_noop_of_covers ff data (scan ff initFeatureSet data) hcov
  have hcnt := scan_cnt ff data (scan ff initFeatureSet data)
  exact ⟨hcov, scan_nd ff data initFeatureSet initFeatureSet_nd,
    hnoop.1, hnoop.2.1, hnoop.2.2, hcnt.2, hcnt.1⟩

/-- C10: starting from any feature-set state in which every assigned id has a
recorded empirical count of at least 1 (in particular the fresh state, where
no id is assigned), after any scan every feature id below num_features has an
empirical count of at least 1, because _add increments the count at the moment
it assigns an id and counts never decrease; consequently get_empirical_counts
writes every cell of the dense length-num_features array it returns — no cell
is left unwritten (none). -/
theorem empirical_counts_cover_id_space {Obs : Type} (ff : List Obs → ℕ → List String)
    (data : List (List Obs × List String)) (fs0 : FeatureSet)
    (h0 : ∀ fid, fid < fs0.num_features →
      ∃ v, alookup fs0.empirical_counts fid = some v ∧ 1 ≤ v) :
    (∀ fid, fid < (scan ff fs0 data).num_features →
      ∃ v, alookup (scan ff fs0 data).empirical_counts fid = some v ∧ 1 ≤ v) ∧
    (get_empirical_counts (scan ff fs0 data)).length = (scan ff fs0 data).num_features ∧
    (∀ o ∈ get_empirical_counts (scan ff fs0 data), ∃ v, o = some v ∧ 1 ≤ v) := by
  have hinv : CntInv (scan ff fs0 data) := scan_cntInv ff data fs0 h0
  refine ⟨hinv, by simp [get_empirical_counts], ?_⟩
  intro o ho
  simp only [get_empirical_counts, List.mem_map, List.mem_range] at ho
  obtain ⟨fid, hfid, hoe⟩ := ho
  obtain ⟨v, hv, h1⟩ := hinv fid hfid
  exact ⟨v, by rw [← hoe, hv], h1⟩

/-- Witness for the C10 theorem: the one-sequence corpus dataC1 scanned from
the fresh feature set, whose invariant hypothesis holds vacuously. -/
theorem empirical_counts_cover_id_space_witness :
    (∀ fid, fid < (scan ffOne initFeatureSet dataC1).num_features →
      ∃ v, alookup (scan ffOne initFeatureSet dataC1).empirical_counts fid = some v ∧ 1 ≤ v) ∧
    (get_empirical_counts (scan ffOne initFeatureSet dataC1)).length
      = (scan ffOne initFeatureSet dataC1).num_features ∧
    (∀ o ∈ get_empirical_counts (scan ffOne initFeatureSet dataC1),
      ∃ v, o = some v ∧ 1 ≤ v) :=
  empirical_counts_cover_id_space ffOne dataC1 initFeatureSet
    (fun fid h => absurd h (Nat.not_lt_zero fid))
